import Mathlib

/-!
# Order normalisation (`internal/service/normalize_order.go`)

A shallow embedding of the Go functions `splitProductID`, `extractQuantity`,
`splitProductDetail` and `NormalizeOrder`, and the properties of the
specification proved about them.

Modelling conventions:

* a Go `string` is a list of Unicode code points (`Str`); the separators and
  markers of the program are all ASCII, so splitting and searching by code
  point agrees with the byte-wise library functions on valid UTF-8;
* a Go `int` is a 64-bit two's-complement integer: a Lean `Int` in the range
  `[-2^63, 2^63)`, every arithmetic result being reduced by `wrapInt`;
* the Go map `cleannerMap` is a finite partial function `Str → Option Int`; its
  iteration order is never used by the program;
* the only operation of the program that can panic is the integer division; `divInt`
  takes a proof that its divisor is not zero, so that the functions below are total only
  because the program guards the division;
* `append` on a slice is list concatenation at the end.
-/

namespace Service

/-- A Go string, as the list of its code points. -/
abbrev Str := List Char

/-! ## Go `int` arithmetic -/

/-- Smallest value of a Go `int` (64 bit). -/
def minInt : Int := -(2 ^ 63)

/-- Largest value of a Go `int` (64 bit). -/
def maxInt : Int := 2 ^ 63 - 1

/-- Two's-complement reduction of a mathematical integer to a Go `int`. -/
def wrapInt (x : Int) : Int := (x + 2 ^ 63) % 2 ^ 64 - 2 ^ 63

/-- Go `a + b` on `int`. -/
def addInt (a b : Int) : Int := wrapInt (a + b)

/-- Go `a * b` on `int`. -/
def mulInt (a b : Int) : Int := wrapInt (a * b)

/-- Go `a / b` on `int`: the quotient truncated toward zero. Go panics when `b = 0`, so
the division asks its caller for a proof that the divisor is not zero. -/
def divInt (a b : Int) (_h : b ≠ 0) : Int := wrapInt (Int.tdiv a b)

/-- Sum of a list in Go `int` arithmetic, accumulated from `0` left to right. -/
def sumInt (xs : List Int) : Int := xs.foldl addInt 0

/-! ## Library functions of `strings` and `strconv` -/

/-- The replacer `strings.NewReplacer("%20x", "", "%20", "")`: one left-to-right pass,
at each position the first matching old string in argument order is removed, and the
scan resumes after the match. -/
def replaceNoise : Str → Str
  | '%' :: '2' :: '0' :: 'x' :: rest => replaceNoise rest
  | '%' :: '2' :: '0' :: rest => replaceNoise rest
  | c :: rest => c :: replaceNoise rest
  | [] => []

/-- The function `strings.Split(s, sep)` for a one-character separator: the pieces
between the separators, one more than there are separators. -/
def Split (sep : Char) : Str → List Str
  | [] => [[]]
  | c :: cs =>
    if c = sep then [] :: Split sep cs
    else
      match Split sep cs with
      | [] => [[c]]
      | p :: ps => (c :: p) :: ps

/-- The function `strings.SplitN(s, sep, n)` for a one-character separator and `n > 0`:
at most `n` pieces, the last one being the unsplit remainder. -/
def SplitN (sep : Char) : Nat → Str → List Str
  | 0, _ => []
  | 1, s => [s]
  | _ + 2, [] => [[]]
  | n + 2, c :: cs =>
    if c = sep then [] :: SplitN sep (n + 1) cs
    else
      match SplitN sep (n + 2) cs with
      | [] => [[c]]
      | p :: ps => (c :: p) :: ps

/-- The predicate `unicode.IsSpace`. -/
def isSpace (c : Char) : Bool :=
  let n := c.toNat
  (9 ≤ n && n ≤ 13) || n = 0x20 || n = 0x85 || n = 0xA0 || n = 0x1680 ||
  (0x2000 ≤ n && n ≤ 0x200A) || n = 0x2028 || n = 0x2029 || n = 0x202F ||
  n = 0x205F || n = 0x3000

/-- The function `strings.TrimSpace`. -/
def TrimSpace (s : Str) : Str := ((s.dropWhile isSpace).reverse.dropWhile isSpace).reverse

/-- The function `strings.TrimLeft(s, cutset)` for a one-character cutset. -/
def TrimLeft (s : Str) (c : Char) : Str := s.dropWhile (fun x => x == c)

/-- The function `strings.TrimRight(s, cutset)` for a one-character cutset. -/
def TrimRight (s : Str) (c : Char) : Str := (s.reverse.dropWhile (fun x => x == c)).reverse

/-- The function `strings.Index(s, substr)`: the position of the first occurrence,
`none` standing for `-1`. -/
def Index (substr : Str) : Str → Option Nat
  | [] => if substr.isPrefixOf [] then some 0 else none
  | c :: cs => if substr.isPrefixOf (c :: cs) then some 0 else (Index substr cs).map (· + 1)

/-- Value of a string of decimal digits. -/
def parseDigits (ds : Str) : Int := ds.foldl (fun n c => n * 10 + ((c.toNat : Int) - 48)) 0

/-- The digits of a numeral: the string without its leading sign, if it has one. -/
def unsigned : Str → Str
  | '-' :: r => r
  | '+' :: r => r
  | s => s

/-- The function `strconv.Atoi`: an optional sign followed by one or more decimal digits,
whose value fits a Go `int`; `none` stands for a non-nil error. -/
def Atoi (s : Str) : Option Int :=
  let ds := unsigned s
  if ds.isEmpty || !ds.all Char.isDigit then none
  else
    let v := if s.head? = some '-' then -parseDigits ds else parseDigits ds
    if minInt ≤ v ∧ v ≤ maxInt then some v else none

/-! ## The data model (`internal/model`) -/

/-- The record `model.InputOrder`. -/
structure InputOrder where
  No : Int
  PlatformProductId : Str
  Qty : Int
  UnitPrice : Int
  TotalPrice : Int
  deriving DecidableEq, Repr

/-- The record `model.CleanedOrder`. -/
structure CleanedOrder where
  No : Int
  ProductId : Str
  MaterialId : Str
  ModelId : Str
  Qty : Int
  UnitPrice : Int
  TotalPrice : Int
  deriving DecidableEq, Repr

/-! ## The functions of `normalize_order.go` -/

/-- The marker `"FG0A"`. -/
def fg0a : Str := ['F', 'G', '0', 'A']

/-- The loop body of `splitProductID`: the cleaning of one piece. -/
def cleanPiece (r : Str) : Str :=
  let r := TrimSpace r
  let r := TrimLeft r '-'
  let r := TrimRight r '-'
  match Index fg0a r with
  | some index => r.drop index
  | none => r

/-- The function `splitProductID`. -/
def splitProductID (inputProduct : Str) : List Str :=
  let inputProduct := replaceNoise inputProduct
  let result := Split '/' inputProduct
  result.map cleanPiece

/-- The function `extractQuantity`. -/
def extractQuantity (product : Str) : Str × Int :=
  match Split '*' product with
  | [p0, p1] =>
    match Atoi p1 with
    | some qty => (p0, qty)
    | none =>
      match Atoi p0 with
      | some qty => (p1, qty)
      | none => (product, 1)
  | _ => (product, 1)

/-- The function `splitProductDetail`. -/
def splitProductDetail (product : Str) : Str × Str × Str :=
  let parts := SplitN '-' 3 product
  (parts.getD 0 [], parts.getD 1 [], parts.getD 2 [])

/-- The suffix `"-CLEANNER"`. -/
def cleannerSuffix : Str := ['-', 'C', 'L', 'E', 'A', 'N', 'N', 'E', 'R']

/-- The product id `"WIPING-CLOTH"`. -/
def wipingCloth : Str := ['W', 'I', 'P', 'I', 'N', 'G', '-', 'C', 'L', 'O', 'T', 'H']

/-- The local variables of `NormalizeOrder` that live across its loops. -/
structure State where
  cleanedOrders : List CleanedOrder
  cleannerMap : Str → Option Int
  cleannerMapOrder : List Str
  totalProductQuantity : Int
  no : Int

/-- The state at the entry of the loop over the input orders. -/
def State.init : State :=
  { cleanedOrders := [], cleannerMap := fun _ => none, cleannerMapOrder := [],
    totalProductQuantity := 0, no := 1 }

/-- Assignment `m[k] = v` on a Go map. -/
def mapSet (m : Str → Option Int) (k : Str) (v : Int) : Str → Option Int :=
  fun k' => if k' = k then some v else m k'

/-- One iteration of the loop `for i := range products` (lines 139-165), for the
item `(productIDs[i], productQuantities[i])`. -/
def emitItem (unitPrice : Int) (st : State) (item : Str × Int) : State :=
  let quantity := item.2
  let totalPrice := mulInt unitPrice quantity
  let (filmTypeID, textureID, phoneModelID) := splitProductDetail item.1
  let line : CleanedOrder :=
    { No := st.no
      ProductId := filmTypeID ++ '-' :: textureID ++ '-' :: phoneModelID
      MaterialId := filmTypeID ++ '-' :: textureID
      ModelId := phoneModelID
      Qty := quantity
      UnitPrice := unitPrice
      TotalPrice := totalPrice }
  let cleannerKey := textureID ++ cleannerSuffix
  match st.cleannerMap cleannerKey with
  | some qty =>
    { st with
      cleanedOrders := st.cleanedOrders ++ [line]
      no := addInt st.no 1
      cleannerMap := mapSet st.cleannerMap cleannerKey (addInt qty quantity) }
  | none =>
    { st with
      cleanedOrders := st.cleanedOrders ++ [line]
      no := addInt st.no 1
      cleannerMap := mapSet st.cleannerMap cleannerKey quantity
      cleannerMapOrder := st.cleannerMapOrder ++ [cleannerKey] }

/-- The pairs `(productIDs[i], productQuantities[i])` filled by the first inner loop
(lines 125-130). -/
def orderItems (inputOrder : InputOrder) : List (Str × Int) :=
  (splitProductID inputOrder.PlatformProductId).map fun product =>
    let (productID, quantity) := extractQuantity product
    (productID, mulInt inputOrder.Qty quantity)

/-- The value of `total` after the first inner loop. -/
def orderTotal (inputOrder : InputOrder) : Int :=
  sumInt ((orderItems inputOrder).map Prod.snd)

/-- The value of `unitPrice` (lines 134-137); the guard `total > 0` is what allows the
division. -/
def orderUnitPrice (inputOrder : InputOrder) : Int :=
  if h : orderTotal inputOrder > 0 then
    divInt inputOrder.TotalPrice (orderTotal inputOrder) (Int.ne_of_gt h)
  else 0

/-- One iteration of the loop over the input orders (lines 117-166). -/
def processOrder (st : State) (inputOrder : InputOrder) : State :=
  let st := { st with
    totalProductQuantity := addInt st.totalProductQuantity (orderTotal inputOrder) }
  (orderItems inputOrder).foldl (emitItem (orderUnitPrice inputOrder)) st

/-- The wiping-cloth line appended after the loop (lines 169-174). -/
def appendCloth (st : State) : State :=
  { st with
    cleanedOrders := st.cleanedOrders ++
      [{ No := st.no, ProductId := wipingCloth, MaterialId := [], ModelId := [],
         Qty := st.totalProductQuantity, UnitPrice := 0, TotalPrice := 0 }]
    no := addInt st.no 1 }

/-- One iteration of the loop over `cleannerMapOrder` (lines 177-184). -/
def appendCleanner (st : State) (key : Str) : State :=
  { st with
    cleanedOrders := st.cleanedOrders ++
      [{ No := st.no, ProductId := key, MaterialId := [], ModelId := [],
         Qty := (st.cleannerMap key).getD 0, UnitPrice := 0, TotalPrice := 0 }]
    no := addInt st.no 1 }

/-- The function `NormalizeOrder`. -/
def NormalizeOrder (inputOrders : List InputOrder) : List CleanedOrder :=
  let st := inputOrders.foldl processOrder State.init
  let st := appendCloth st
  let st := st.cleannerMapOrder.foldl appendCleanner st
  st.cleanedOrders

/-! ## Vocabulary of the statements -/

/-- The line that `NormalizeOrder` builds for the item `(productID, quantity)` when the
counter is `no` and the unit price of the order is `unitPrice` (lines 142-154). -/
def itemLine (no unitPrice : Int) (item : Str × Int) : CleanedOrder :=
  { No := no
    ProductId := (splitProductDetail item.1).1 ++ '-' :: (splitProductDetail item.1).2.1 ++
      '-' :: (splitProductDetail item.1).2.2
    MaterialId := (splitProductDetail item.1).1 ++ '-' :: (splitProductDetail item.1).2.1
    ModelId := (splitProductDetail item.1).2.2
    Qty := item.2
    UnitPrice := unitPrice
    TotalPrice := mulInt unitPrice item.2 }

/-- The key under which an item is counted in `cleannerMap` (line 158). -/
def itemKey (item : Str × Int) : Str := (splitProductDetail item.1).2.1 ++ cleannerSuffix

/-- A synthesized line: only `No`, `ProductId` and `Qty` are set, the other fields keep
their zero values. -/
def freeLine (no : Int) (productId : Str) (qty : Int) : CleanedOrder :=
  { No := no, ProductId := productId, MaterialId := [], ModelId := [], Qty := qty,
    UnitPrice := 0, TotalPrice := 0 }

/-- A line without its sequence number. -/
def body (l : CleanedOrder) : CleanedOrder := { l with No := 0 }

/-- The items of a whole batch in processing order, each with the unit price of its order. -/
def batchItems (inputOrders : List InputOrder) : List (Int × Str × Int) :=
  inputOrders.flatMap fun o => (orderItems o).map fun item => (orderUnitPrice o, item)

/-- One iteration of the inner loop, on an item of `batchItems`. -/
def emitFlat (st : State) (p : Int × Str × Int) : State := emitItem p.1 st p.2

/-- The number `D` of order-derived lines: the tokens of all orders of the batch. -/
def derivedCount (inputOrders : List InputOrder) : Nat :=
  (inputOrders.map fun o => (splitProductID o.PlatformProductId).length).sum

/-- The texture segment of a token: the second segment of its product code. -/
def tokenTexture (token : Str) : Str := (splitProductDetail (extractQuantity token).1).2.1

/-- The texture segments of all items of a batch, orders in input order and tokens in
split order. -/
def batchTextures (inputOrders : List InputOrder) : List Str :=
  inputOrders.flatMap fun o => (splitProductID o.PlatformProductId).map tokenTexture

/-- The state of `NormalizeOrder` when the loop over the orders is left. -/
def loopState (orders : List InputOrder) : State := orders.foldl processOrder State.init

/-- The expanded quantities of an order: for each token, the order's `Qty` times the
multiplier extracted from the token (Go `int` multiplication). -/
def expandedQuantities (o : InputOrder) : List Int :=
  (splitProductID o.PlatformProductId).map fun token => mulInt o.Qty (extractQuantity token).2

/-- The cleaner keys of all items of a batch, in processing order (with repetitions). -/
def batchKeys (inputOrders : List InputOrder) : List Str :=
  (batchTextures inputOrders).map fun t => t ++ cleannerSuffix

/-- The product ids of the lines that follow the wiping-cloth line in the output. -/
def cleannerIds (inputOrders : List InputOrder) : List Str :=
  ((NormalizeOrder inputOrders).drop (derivedCount inputOrders + 1)).map fun l => l.ProductId

/-- The three trimming steps of `splitProductID` on one piece (lines 34-36). -/
def trimPiece (r : Str) : Str := TrimRight (TrimLeft (TrimSpace r) '-') '-'

/-- The noise substring `"%20"`. -/
def noise20 : Str := ['%', '2', '0']

/-- The noise substring `"%20x"`. -/
def noise20x : Str := ['%', '2', '0', 'x']

/-- The value fits a Go `int`. -/
abbrev fitsInt (x : Int) : Prop := minInt ≤ x ∧ x ≤ maxInt

/-- The text after a removed `"%20"`: an `x` that follows it is removed with it. -/
def dropX (b : Str) : Str := if b.head? = some 'x' then b.tail else b

/-- Every string of the list is one of the noise substrings `"%20"`, `"%20x"`. -/
def AllNoise (ns : List Str) : Prop := ∀ n ∈ ns, n = noise20 ∨ n = noise20x

/-- The string is a `%`, a `2` and a `0` in this order, separated by noise substrings only
and by at least one: removing the noise substrings joins it into `"%20"`. -/
def JoinsToNoise (w : Str) : Prop :=
  ∃ ns ms : List Str, AllNoise ns ∧ AllNoise ms ∧ ns ++ ms ≠ [] ∧
    w = '%' :: ns.flatten ++ '2' :: ms.flatten ++ ['0']

/-- The position of the first occurrence of `k` in `ks`, and `ks.length` when `k` does
not occur. -/
def firstIndex (k : Str) : List Str → Nat
  | [] => 0
  | x :: xs => if x = k then 0 else firstIndex k xs + 1

/-- The sequence numbers `1, 2, ...` are assigned in order, and `no` is the next one. -/
def Numbered (ls : List CleanedOrder) (no : Int) : Prop :=
  no = wrapInt ((ls.length : Int) + 1) ∧
    ls.map (fun l => l.No) = (List.range ls.length).map fun (i : Nat) => wrapInt ((i : Int) + 1)

/-! ## Sample batches (from `normalize_order_test.go`) -/

/-- The input of test case 1. -/
def case1 : List InputOrder :=
  [{ No := 1, PlatformProductId := "FG0A-CLEAR-IPHONE16PROMAX".toList, Qty := 2, UnitPrice := 50,
     TotalPrice := 100 }]

/-- The input of test case 5. -/
def case5 : List InputOrder :=
  [{ No := 1,
     PlatformProductId := "FG0A-CLEAR-OPPOA3/%20xFG0A-CLEAR-OPPOA3-B/FG0A-MATTE-OPPOA3".toList,
     Qty := 1, UnitPrice := 120, TotalPrice := 120 }]

/-- An order whose only token has a negative multiplier. -/
def orderNeg : InputOrder :=
  { No := 1, PlatformProductId := "A*-3".toList, Qty := 1, UnitPrice := 100, TotalPrice := 100 }

/-- An order with quantity 0. -/
def orderZero : InputOrder :=
  { No := 1, PlatformProductId := "FG0A-CLEAR-OPPOA3*2/FG0A-MATTE-OPPOA3".toList, Qty := 0,
    UnitPrice := 50, TotalPrice := 100 }

/-- The order of test case 3. -/
def orderCase3 : InputOrder :=
  { No := 1, PlatformProductId := "x2-3&FG0A-CLEAR-IPHONE16PROMAX*3".toList, Qty := 1,
    UnitPrice := 90, TotalPrice := 90 }

/-- An order whose product code has no `-`. -/
def orderNoDash : InputOrder :=
  { No := 1, PlatformProductId := "ABC".toList, Qty := 2, UnitPrice := 50, TotalPrice := 100 }

/-- An order whose price is not a multiple of its total quantity. -/
def orderTrunc : InputOrder :=
  { No := 1, PlatformProductId := "FG0A-CLEAR-OPPOA3*2/FG0A-MATTE-OPPOA3".toList, Qty := 1,
    UnitPrice := 100, TotalPrice := 100 }

/-- An order of five items whose quantities overflow a Go `int` when added. -/
def orderOverflow : InputOrder :=
  { No := 1, PlatformProductId := "A/B/C/D/E".toList, Qty := 2 ^ 62, UnitPrice := 1,
    TotalPrice := 2 ^ 62 }

/-! ## Go `int` arithmetic: basic facts -/

theorem wrapInt_range (x : Int) : minInt ≤ wrapInt x ∧ wrapInt x ≤ maxInt := by
  unfold wrapInt minInt maxInt
  omega

theorem wrapInt_of_range {x : Int} (h₁ : minInt ≤ x) (h₂ : x ≤ maxInt) : wrapInt x = x := by
  unfold wrapInt
  unfold minInt at h₁
  unfold maxInt at h₂
  omega

theorem wrapInt_wrapInt (x : Int) : wrapInt (wrapInt x) = wrapInt x :=
  wrapInt_of_range (wrapInt_range x).1 (wrapInt_range x).2

theorem wrapInt_add_left (a b : Int) : wrapInt (wrapInt a + b) = wrapInt (a + b) := by
  unfold wrapInt
  omega

theorem wrapInt_add_right (a b : Int) : wrapInt (a + wrapInt b) = wrapInt (a + b) := by
  unfold wrapInt
  omega

theorem wrapInt_zero : wrapInt 0 = 0 := by decide

theorem wrapInt_one : wrapInt 1 = 1 := by decide

theorem mulInt_zero_left (a : Int) : mulInt 0 a = 0 := by
  simp [mulInt, wrapInt_zero]

theorem foldl_addInt (xs : List Int) (a : Int) :
    xs.foldl addInt a = if xs = [] then a else wrapInt (a + xs.sum) := by
  induction xs generalizing a with
  | nil => simp
  | cons x xs ih =>
    rw [List.foldl_cons, ih]
    by_cases h : xs = []
    · subst h; simp [addInt]
    · simp [h, addInt, wrapInt_add_left, add_assoc]

theorem foldl_addInt_wrap (xs : List Int) (a : Int) :
    xs.foldl addInt (wrapInt a) = wrapInt (a + xs.sum) := by
  rw [foldl_addInt]
  split
  · next h => subst h; simp
  · exact wrapInt_add_left _ _

/-- The Go sum of a list is the mathematical sum reduced to 64 bits. -/
theorem sumInt_eq (xs : List Int) : sumInt xs = wrapInt xs.sum := by
  have h := foldl_addInt_wrap xs 0
  rw [wrapInt_zero] at h
  simpa [sumInt] using h

/-! ## `strings.Split` -/

theorem Split_ne_nil (sep : Char) (s : Str) : Split sep s ≠ [] := by
  cases s with
  | nil => simp [Split]
  | cons c cs =>
    unfold Split
    split
    · simp
    · split <;> simp

theorem Split_of_not_mem {sep : Char} {s : Str} (h : sep ∉ s) : Split sep s = [s] := by
  induction s with
  | nil => rfl
  | cons c cs ih =>
    have hc : c ≠ sep := fun e => h (by simp [e])
    have hcs : sep ∉ cs := fun e => h (List.mem_cons_of_mem _ e)
    simp [Split, hc, ih hcs]

theorem Split_append_sep {sep : Char} {a : Str} (b : Str) (h : sep ∉ a) :
    Split sep (a ++ sep :: b) = a :: Split sep b := by
  induction a with
  | nil => simp [Split]
  | cons c cs ih =>
    have hc : c ≠ sep := fun e => h (by simp [e])
    have hcs : sep ∉ cs := fun e => h (List.mem_cons_of_mem _ e)
    simp [Split, hc, ih hcs]

theorem length_Split (sep : Char) (s : Str) : (Split sep s).length = s.count sep + 1 := by
  induction s with
  | nil => rfl
  | cons c cs ih =>
    unfold Split
    by_cases hc : c = sep
    · subst hc; simp [ih]
    · have hc2 : (c == sep) = false := by simpa using hc
      rw [if_neg hc, List.count_cons, hc2]
      split
      · next h => exact absurd h (Split_ne_nil _ _)
      · next p ps h => rw [h] at ih; simpa using ih

/-! ## `strconv.Atoi` -/

theorem mem_unsigned {s : Str} {c : Char} (hc : c ∈ s) :
    c = '-' ∨ c = '+' ∨ c ∈ unsigned s := by
  unfold unsigned
  split
  · rcases List.mem_cons.1 hc with rfl | hc
    · exact Or.inl rfl
    · exact Or.inr (Or.inr hc)
  · rcases List.mem_cons.1 hc with rfl | hc
    · exact Or.inr (Or.inl rfl)
    · exact Or.inr (Or.inr hc)
  · exact Or.inr (Or.inr hc)

theorem Atoi_digits {s : Str} {n : Int} (h : Atoi s = some n) :
    ∀ c ∈ unsigned s, c.isDigit = true := by
  unfold Atoi at h
  simp only at h
  split at h
  · exact absurd h (by simp)
  · next hd =>
    simp only [Bool.or_eq_true, Bool.not_eq_true', not_or, Bool.not_eq_true,
      Bool.not_eq_false] at hd
    exact List.all_eq_true.1 hd.2

theorem Atoi_chars {s : Str} {n : Int} (h : Atoi s = some n) :
    ∀ c ∈ s, c = '-' ∨ c = '+' ∨ c.isDigit = true := by
  intro c hc
  rcases mem_unsigned hc with h1 | h1 | h1
  · exact Or.inl h1
  · exact Or.inr (Or.inl h1)
  · exact Or.inr (Or.inr (Atoi_digits h c h1))

theorem Atoi_star_not_mem {s : Str} {n : Int} (h : Atoi s = some n) : '*' ∉ s := by
  intro hm
  rcases Atoi_chars h _ hm with h | h | h
  · exact absurd h (by decide)
  · exact absurd h (by decide)
  · exact absurd h (by decide)

/-! ## `extractQuantity` -/

theorem extractQuantity_of_length_ne {tok : Str} (h : (Split '*' tok).length ≠ 2) :
    extractQuantity tok = (tok, 1) := by
  unfold extractQuantity
  split
  · next p0 p1 heq => rw [heq] at h; exact absurd rfl h
  · rfl

theorem extractQuantity_pair {a b : Str} (ha : '*' ∉ a) (hb : '*' ∉ b) :
    extractQuantity (a ++ '*' :: b) =
      match Atoi b with
      | some qty => (a, qty)
      | none =>
        match Atoi a with
        | some qty => (b, qty)
        | none => (a ++ '*' :: b, 1) := by
  have hs : Split '*' (a ++ '*' :: b) = [a, b] := by
    rw [Split_append_sep b ha, Split_of_not_mem hb]
  unfold extractQuantity
  rw [hs]

/-- C9: for a token `a*b` with no `*` inside `a` or `b`: when `b` parses as the integer
`n`, `extractQuantity` returns `(a, n)`; otherwise, when `a` parses as `n`, it returns
`(b, n)`. In particular `CODE*n` and `n*CODE` both give `(CODE, n)` when `CODE` is not
itself an integer literal. -/
theorem extractQuantity_multiplier (a b : Str) (ha : '*' ∉ a) (hb : '*' ∉ b) :
    (∀ n, Atoi b = some n → extractQuantity (a ++ '*' :: b) = (a, n)) ∧
    (Atoi b = none → ∀ n, Atoi a = some n → extractQuantity (a ++ '*' :: b) = (b, n)) ∧
    (∀ n, Atoi a = none → Atoi b = some n →
      extractQuantity (a ++ '*' :: b) = (a, n) ∧ extractQuantity (b ++ '*' :: a) = (a, n)) := by
  refine ⟨?_, ?_, ?_⟩
  · intro n hn
    rw [extractQuantity_pair ha hb, hn]
  · intro hn n hm
    rw [extractQuantity_pair ha hb, hn, hm]
  · intro n hn hm
    constructor
    · rw [extractQuantity_pair ha hb, hm]
    · rw [extractQuantity_pair hb ha, hn, hm]

theorem extractQuantity_multiplier_witness :
    extractQuantity "FG0A-MATTE-IPHONE16PROMAX*3".toList = ("FG0A-MATTE-IPHONE16PROMAX".toList, 3) ∧
    extractQuantity "3*FG0A-MATTE-IPHONE16PROMAX".toList = ("FG0A-MATTE-IPHONE16PROMAX".toList, 3) :=
  (extractQuantity_multiplier "FG0A-MATTE-IPHONE16PROMAX".toList "3".toList
    (by decide) (by decide)).2.2 3 (by decide) (by decide)

/-- C10: a token with no `*`, with more than one `*`, or with exactly one `*` and
neither side parsing as an integer, is returned unchanged with quantity 1 (the function
is total: there is no error result). -/
theorem extractQuantity_passthrough (tok : Str)
    (h : tok.count '*' = 0 ∨ 2 ≤ tok.count '*' ∨
      ∃ a b, tok = a ++ '*' :: b ∧ '*' ∉ a ∧ '*' ∉ b ∧ Atoi a = none ∧ Atoi b = none) :
    extractQuantity tok = (tok, 1) := by
  rcases h with h | h | ⟨a, b, rfl, ha, hb, hna, hnb⟩
  · exact extractQuantity_of_length_ne (by rw [length_Split]; omega)
  · exact extractQuantity_of_length_ne (by rw [length_Split]; omega)
  · rw [extractQuantity_pair ha hb, hnb, hna]

theorem extractQuantity_passthrough_witness :
    extractQuantity "FG0A-CLEAR-IPHONE16PROMAX".toList = ("FG0A-CLEAR-IPHONE16PROMAX".toList, 1) ∧
    extractQuantity "A*2*3".toList = ("A*2*3".toList, 1) ∧
    extractQuantity "A*x2".toList = ("A*x2".toList, 1) :=
  ⟨extractQuantity_passthrough "FG0A-CLEAR-IPHONE16PROMAX".toList (Or.inl (by decide)),
   extractQuantity_passthrough "A*2*3".toList (Or.inr (Or.inl (by decide))),
   extractQuantity_passthrough "A*x2".toList
     (Or.inr (Or.inr ⟨"A".toList, "x2".toList, by decide, by decide, by decide, by decide,
       by decide⟩))⟩

/-! ## The loop bodies of `NormalizeOrder` -/

theorem emitItem_cleanedOrders (u : Int) (st : State) (item : Str × Int) :
    (emitItem u st item).cleanedOrders = st.cleanedOrders ++ [itemLine st.no u item] := by
  unfold emitItem
  rcases h : splitProductDetail item.1 with ⟨f, t, m⟩
  simp only [itemLine, h]
  split <;> rfl

theorem emitItem_no (u : Int) (st : State) (item : Str × Int) :
    (emitItem u st item).no = addInt st.no 1 := by
  unfold emitItem
  rcases h : splitProductDetail item.1 with ⟨f, t, m⟩
  simp only
  split <;> rfl

theorem emitItem_total (u : Int) (st : State) (item : Str × Int) :
    (emitItem u st item).totalProductQuantity = st.totalProductQuantity := by
  unfold emitItem
  rcases h : splitProductDetail item.1 with ⟨f, t, m⟩
  simp only
  split <;> rfl

theorem emitItem_cleannerMap (u : Int) (st : State) (item : Str × Int) :
    (emitItem u st item).cleannerMap =
      mapSet st.cleannerMap (itemKey item)
        (match st.cleannerMap (itemKey item) with
         | some qty => addInt qty item.2
         | none => item.2) := by
  unfold emitItem
  rcases h : splitProductDetail item.1 with ⟨f, t, m⟩
  simp only [itemKey, h]
  split <;> next h2 => simp only [h2]

theorem emitItem_cleannerMapOrder (u : Int) (st : State) (item : Str × Int) :
    (emitItem u st item).cleannerMapOrder =
      match st.cleannerMap (itemKey item) with
      | some _ => st.cleannerMapOrder
      | none => st.cleannerMapOrder ++ [itemKey item] := by
  unfold emitItem
  rcases h : splitProductDetail item.1 with ⟨f, t, m⟩
  simp only [itemKey, h]
  split <;> next h2 => simp only [h2]

/-- The loop body does not read `totalProductQuantity`. -/
theorem emitItem_setTotal (u : Int) (st : State) (item : Str × Int) (x : Int) :
    emitItem u { st with totalProductQuantity := x } item =
      { emitItem u st item with totalProductQuantity := x } := by
  unfold emitItem
  rcases h : splitProductDetail item.1 with ⟨f, t, m⟩
  simp only
  split <;> next h2 => simp only [h2]

theorem foldl_emitItem_setTotal (u : Int) (items : List (Str × Int)) (st : State) (x : Int) :
    items.foldl (emitItem u) { st with totalProductQuantity := x } =
      { items.foldl (emitItem u) st with totalProductQuantity := x } := by
  induction items generalizing st with
  | nil => rfl
  | cons it items ih =>
    rw [List.foldl_cons, List.foldl_cons, emitItem_setTotal, ih]

theorem foldl_emitItem_total (u : Int) (items : List (Str × Int)) (st : State) :
    (items.foldl (emitItem u) st).totalProductQuantity = st.totalProductQuantity := by
  induction items generalizing st with
  | nil => rfl
  | cons it items ih => rw [List.foldl_cons, ih, emitItem_total]

theorem foldl_emitItem_eq_emitFlat (u : Int) (items : List (Str × Int)) (st : State) :
    items.foldl (emitItem u) st = (items.map fun item => (u, item)).foldl emitFlat st := by
  induction items generalizing st with
  | nil => rfl
  | cons it items ih => simp only [List.foldl_cons, List.map_cons, ih, emitFlat]

theorem foldl_emitFlat_total (items : List (Int × Str × Int)) (st : State) :
    (items.foldl emitFlat st).totalProductQuantity = st.totalProductQuantity := by
  induction items generalizing st with
  | nil => rfl
  | cons it items ih => rw [List.foldl_cons, ih, emitFlat, emitItem_total]

theorem foldl_emitFlat_setTotal (items : List (Int × Str × Int)) (st : State) (x : Int) :
    items.foldl emitFlat { st with totalProductQuantity := x } =
      { items.foldl emitFlat st with totalProductQuantity := x } := by
  induction items generalizing st with
  | nil => rfl
  | cons it items ih =>
    rw [List.foldl_cons, List.foldl_cons, emitFlat, emitItem_setTotal, ih]; rfl

/-- The loop over the orders is the loop over all items of the batch, with the running
total of the quantities kept aside. -/
theorem foldl_processOrder (orders : List InputOrder) (st : State) :
    orders.foldl processOrder st =
      { (batchItems orders).foldl emitFlat st with
        totalProductQuantity := (orders.map orderTotal).foldl addInt st.totalProductQuantity } := by
  induction orders generalizing st with
  | nil => rfl
  | cons o orders ih =>
    rw [List.foldl_cons, ih]
    simp only [batchItems, List.flatMap_cons, List.foldl_append, List.map_cons, List.foldl_cons]
    simp only [processOrder, foldl_emitItem_eq_emitFlat, foldl_emitFlat_setTotal,
      foldl_emitFlat_total]

/-! ## Numbering -/

theorem numbered_snoc {ls : List CleanedOrder} {no : Int} (h : Numbered ls no)
    {l : CleanedOrder} (hl : l.No = no) : Numbered (ls ++ [l]) (addInt no 1) := by
  obtain ⟨h₁, h₂⟩ := h
  constructor
  · rw [h₁, addInt, wrapInt_add_left, List.length_append, List.length_singleton]
    push_cast
    rfl
  · rw [List.length_append, List.length_singleton, List.range_succ, List.map_append,
      List.map_append, h₂, List.map_singleton, List.map_singleton, hl, h₁]

theorem numbered_emitItem {st : State} (h : Numbered st.cleanedOrders st.no) (u : Int)
    (item : Str × Int) :
    Numbered (emitItem u st item).cleanedOrders (emitItem u st item).no := by
  rw [emitItem_cleanedOrders, emitItem_no]
  exact numbered_snoc h rfl

theorem numbered_foldl_emitFlat (items : List (Int × Str × Int)) {st : State}
    (h : Numbered st.cleanedOrders st.no) :
    Numbered (items.foldl emitFlat st).cleanedOrders (items.foldl emitFlat st).no := by
  induction items generalizing st with
  | nil => exact h
  | cons it items ih => exact ih (numbered_emitItem h _ _)

theorem numbered_appendCloth {st : State} (h : Numbered st.cleanedOrders st.no) :
    Numbered (appendCloth st).cleanedOrders (appendCloth st).no :=
  numbered_snoc h rfl

theorem numbered_appendCleanner {st : State} (h : Numbered st.cleanedOrders st.no) (k : Str) :
    Numbered (appendCleanner st k).cleanedOrders (appendCleanner st k).no :=
  numbered_snoc h rfl

theorem numbered_foldl_appendCleanner (keys : List Str) {st : State}
    (h : Numbered st.cleanedOrders st.no) :
    Numbered (keys.foldl appendCleanner st).cleanedOrders (keys.foldl appendCleanner st).no := by
  induction keys generalizing st with
  | nil => exact h
  | cons k keys ih => exact ih (numbered_appendCleanner h k)

theorem numbered_init : Numbered State.init.cleanedOrders State.init.no := by
  constructor
  · decide
  · rfl

theorem NormalizeOrder_eq (orders : List InputOrder) :
    NormalizeOrder orders =
      ((loopState orders).cleannerMapOrder.foldl appendCleanner
        (appendCloth (loopState orders))).cleanedOrders := rfl

theorem numbered_loopState (orders : List InputOrder) :
    Numbered (loopState orders).cleanedOrders (loopState orders).no := by
  rw [loopState, foldl_processOrder]
  exact numbered_foldl_emitFlat _ numbered_init

/-- Every line of the output carries its position, counted from 1, as a Go `int`. -/
theorem NormalizeOrder_No (orders : List InputOrder) (i : Nat)
    (hi : i < (NormalizeOrder orders).length) :
    (NormalizeOrder orders)[i].No = wrapInt ((i : Int) + 1) := by
  have h := (numbered_foldl_appendCleanner (loopState orders).cleannerMapOrder
    (numbered_appendCloth (numbered_loopState orders))).2
  rw [← NormalizeOrder_eq] at h
  have h2 : ((NormalizeOrder orders).map fun l => l.No)[i]? =
      ((List.range (NormalizeOrder orders).length).map fun (i : Nat) => wrapInt ((i : Int) + 1))[i]? := by
    rw [h]
  rw [List.getElem?_map, List.getElem?_map, List.getElem?_eq_getElem hi,
    List.getElem?_range hi] at h2
  simpa using h2

/-! ## The lines of the output -/

theorem body_itemLine (no u : Int) (item : Str × Int) :
    body (itemLine no u item) = itemLine 0 u item := rfl

theorem body_freeLine (no : Int) (k : Str) (q : Int) : body (freeLine no k q) = freeLine 0 k q :=
  rfl

theorem foldl_emitFlat_body (items : List (Int × Str × Int)) (st : State) :
    (items.foldl emitFlat st).cleanedOrders.map body =
      st.cleanedOrders.map body ++ items.map fun p => itemLine 0 p.1 p.2 := by
  induction items generalizing st with
  | nil => simp
  | cons p items ih =>
    rw [List.foldl_cons, ih, emitFlat, emitItem_cleanedOrders, List.map_append,
      List.map_singleton, body_itemLine, List.map_cons, List.append_assoc,
      List.singleton_append]

theorem appendCleanner_cleannerMap (st : State) (k : Str) :
    (appendCleanner st k).cleannerMap = st.cleannerMap := rfl

theorem foldl_appendCleanner_body (keys : List Str) (st : State) :
    (keys.foldl appendCleanner st).cleanedOrders.map body =
      st.cleanedOrders.map body ++
        keys.map fun k => freeLine 0 k ((st.cleannerMap k).getD 0) := by
  induction keys generalizing st with
  | nil => simp
  | cons k keys ih =>
    rw [List.foldl_cons, ih, appendCleanner_cleannerMap]
    simp only [appendCleanner, List.map_append, List.map_singleton, List.map_cons,
      List.append_assoc, List.singleton_append]
    rfl

theorem loopState_eq (orders : List InputOrder) :
    loopState orders =
      { (batchItems orders).foldl emitFlat State.init with
        totalProductQuantity := sumInt (orders.map orderTotal) } := by
  rw [loopState, foldl_processOrder]
  rfl

/-- The output without its sequence numbers: the lines of the items, the wiping cloth,
the cleaners in recorded order. -/
theorem NormalizeOrder_body (orders : List InputOrder) :
    (NormalizeOrder orders).map body =
      (batchItems orders).map (fun p => itemLine 0 p.1 p.2) ++
        freeLine 0 wipingCloth (sumInt (orders.map orderTotal)) ::
          (loopState orders).cleannerMapOrder.map fun k =>
            freeLine 0 k (((loopState orders).cleannerMap k).getD 0) := by
  rw [NormalizeOrder_eq, foldl_appendCleanner_body]
  have h : (appendCloth (loopState orders)).cleanedOrders.map body =
      (batchItems orders).map (fun p => itemLine 0 p.1 p.2) ++
        [freeLine 0 wipingCloth (sumInt (orders.map orderTotal))] := by
    simp only [appendCloth, List.map_append, List.map_singleton]
    rw [loopState_eq]
    simp only [foldl_emitFlat_body]
    rfl
  rw [h, List.append_assoc, List.singleton_append]
  rfl

theorem length_batchItems (orders : List InputOrder) :
    (batchItems orders).length = derivedCount orders := by
  induction orders with
  | nil => rfl
  | cons o orders ih =>
    simp only [batchItems, List.flatMap_cons, List.length_append, List.length_map] at ih ⊢
    rw [ih]
    simp [derivedCount, orderItems]

/-- The quantities counted per cleaner key after the items `items`. -/
theorem tally_cleannerMap (items : List (Int × Str × Int))
    (hq : ∀ p ∈ items, wrapInt p.2.2 = p.2.2) (k : Str) :
    (items.foldl emitFlat State.init).cleannerMap k =
      if k ∈ items.map (fun p => itemKey p.2) then
        some (wrapInt ((items.filter fun p => itemKey p.2 = k).map fun p => p.2.2).sum)
      else none := by
  induction items using List.reverseRecOn generalizing k with
  | nil => simp [State.init]
  | append_singleton l p ih =>
    have ih := fun k => ih (fun q hq' => hq q (List.mem_append_left _ hq')) k
    have hp := hq p (by simp)
    rw [List.foldl_append, List.foldl_cons, List.foldl_nil, emitFlat, emitItem_cleannerMap, mapSet]
    by_cases hk : k = itemKey p.2
    · subst hk
      rw [if_pos rfl, ih]
      by_cases hm : itemKey p.2 ∈ l.map (fun p => itemKey p.2)
      · simp [hm, List.filter_append, addInt, wrapInt_add_left]
      · have hnil : (l.filter fun q => itemKey q.2 = itemKey p.2) = [] :=
          List.filter_eq_nil_iff.2 fun q hq' heq =>
            hm (List.mem_map.2 ⟨q, hq', of_decide_eq_true heq⟩)
        simp [hm, hnil, List.filter_append, hp]
    · have hk2 : ¬ itemKey p.2 = k := fun e => hk e.symm
      have hmem : k ∈ (l ++ [p]).map (fun p => itemKey p.2) ↔
          k ∈ l.map (fun p => itemKey p.2) := by
        rw [List.map_append, List.mem_append, List.map_singleton, List.mem_singleton]
        exact ⟨fun h => h.resolve_right hk, Or.inl⟩
      rw [if_neg hk, ih]
      simp only [hmem, List.filter_append]
      simp [hk2]

theorem firstIndex_append_of_mem {k : Str} {l₁ : List Str} (l₂ : List Str) (h : k ∈ l₁) :
    firstIndex k (l₁ ++ l₂) = firstIndex k l₁ := by
  induction l₁ with
  | nil => simp at h
  | cons x xs ih =>
    by_cases hx : x = k
    · simp [firstIndex, hx]
    · have hk : k ∈ xs := by
        rcases List.mem_cons.1 h with h | h
        · exact absurd h.symm hx
        · exact h
      simp [firstIndex, hx, ih hk]

theorem firstIndex_append_of_not_mem {k : Str} {l₁ : List Str} (l₂ : List Str) (h : k ∉ l₁) :
    firstIndex k (l₁ ++ l₂) = l₁.length + firstIndex k l₂ := by
  induction l₁ with
  | nil => simp
  | cons x xs ih =>
    have hx : x ≠ k := fun e => h (by simp [e])
    have hk : k ∉ xs := fun e => h (List.mem_cons_of_mem _ e)
    simp [firstIndex, hx, ih hk]
    omega

theorem firstIndex_lt_length {k : Str} {l : List Str} (h : k ∈ l) : firstIndex k l < l.length := by
  induction l with
  | nil => simp at h
  | cons x xs ih =>
    by_cases hx : x = k
    · simp [firstIndex, hx]
    · have hk : k ∈ xs := by
        rcases List.mem_cons.1 h with h | h
        · exact absurd h.symm hx
        · exact h
      simp [firstIndex, hx, ih hk]

theorem tally_cleannerMapOrder_snoc (l : List (Int × Str × Int)) (p : Int × Str × Int)
    (hq : ∀ q ∈ l, wrapInt q.2.2 = q.2.2) :
    ((l ++ [p]).foldl emitFlat State.init).cleannerMapOrder =
      if itemKey p.2 ∈ l.map (fun p => itemKey p.2) then
        (l.foldl emitFlat State.init).cleannerMapOrder
      else (l.foldl emitFlat State.init).cleannerMapOrder ++ [itemKey p.2] := by
  rw [List.foldl_append, List.foldl_cons, List.foldl_nil, emitFlat, emitItem_cleannerMapOrder,
    tally_cleannerMap l hq]
  split_ifs <;> rfl

/-- The keys recorded in `cleannerMapOrder` are the keys of the items. -/
theorem tally_mem_cleannerMapOrder (items : List (Int × Str × Int))
    (hq : ∀ p ∈ items, wrapInt p.2.2 = p.2.2) (k : Str) :
    k ∈ (items.foldl emitFlat State.init).cleannerMapOrder ↔
      k ∈ items.map (fun p => itemKey p.2) := by
  induction items using List.reverseRecOn with
  | nil => simp [State.init]
  | append_singleton l p ih =>
    have hl : ∀ q ∈ l, wrapInt q.2.2 = q.2.2 := fun q hq' => hq q (List.mem_append_left _ hq')
    have ih := ih hl
    rw [tally_cleannerMapOrder_snoc l p hl, List.map_append, List.mem_append, List.map_singleton,
      List.mem_singleton]
    split_ifs with hm
    · rw [ih]
      constructor
      · exact Or.inl
      · rintro (h | h)
        · exact h
        · rw [h]; exact hm
    · rw [List.mem_append, List.mem_singleton, ih]

/-- The keys are recorded in the order of their first occurrence among the items. -/
theorem tally_pairwise_cleannerMapOrder (items : List (Int × Str × Int))
    (hq : ∀ p ∈ items, wrapInt p.2.2 = p.2.2) :
    (items.foldl emitFlat State.init).cleannerMapOrder.Pairwise fun a b =>
      firstIndex a (items.map fun p => itemKey p.2) <
        firstIndex b (items.map fun p => itemKey p.2) := by
  induction items using List.reverseRecOn with
  | nil => simp [State.init]
  | append_singleton l p ih =>
    have hl : ∀ q ∈ l, wrapInt q.2.2 = q.2.2 := fun q hq' => hq q (List.mem_append_left _ hq')
    have ih := ih hl
    have hmem := tally_mem_cleannerMapOrder l hl
    have hold : (l.foldl emitFlat State.init).cleannerMapOrder.Pairwise fun a b =>
        firstIndex a ((l ++ [p]).map fun p => itemKey p.2) <
          firstIndex b ((l ++ [p]).map fun p => itemKey p.2) := by
      refine List.Pairwise.imp_of_mem ?_ ih
      intro a b ha hb hab
      rw [List.map_append, firstIndex_append_of_mem _ ((hmem a).1 ha),
        firstIndex_append_of_mem _ ((hmem b).1 hb)]
      exact hab
    rw [tally_cleannerMapOrder_snoc l p hl]
    split_ifs with hm
    · exact hold
    · rw [List.pairwise_append]
      refine ⟨hold, List.pairwise_singleton _ _, ?_⟩
      intro a ha b hb
      rw [List.mem_singleton] at hb
      subst hb
      rw [List.map_append, firstIndex_append_of_mem _ ((hmem a).1 ha),
        firstIndex_append_of_not_mem _ hm]
      exact Nat.lt_add_right _ (firstIndex_lt_length ((hmem a).1 ha))

theorem batchItems_range (orders : List InputOrder) :
    ∀ p ∈ batchItems orders, wrapInt p.2.2 = p.2.2 := by
  intro p hp
  simp only [batchItems, List.mem_flatMap, List.mem_map, orderItems] at hp
  obtain ⟨o, _, item, ⟨tok, _, rfl⟩, rfl⟩ := hp
  exact wrapInt_wrapInt _

/-! ## The three parts of the output -/

theorem NormalizeOrder_getElem? (orders : List InputOrder) (i : Nat) :
    ((NormalizeOrder orders)[i]?).map body =
      ((batchItems orders).map (fun p => itemLine 0 p.1 p.2) ++
        freeLine 0 wipingCloth (sumInt (orders.map orderTotal)) ::
          (loopState orders).cleannerMapOrder.map fun k =>
            freeLine 0 k (((loopState orders).cleannerMap k).getD 0))[i]? := by
  rw [← List.getElem?_map, NormalizeOrder_body]

theorem length_NormalizeOrder (orders : List InputOrder) :
    (NormalizeOrder orders).length =
      derivedCount orders + 1 + (loopState orders).cleannerMapOrder.length := by
  have h := congrArg List.length (NormalizeOrder_body orders)
  simp only [List.length_map, List.length_append, List.length_cons, length_batchItems] at h
  omega

/-- The first `D` lines are the lines of the items. -/
theorem NormalizeOrder_take (orders : List InputOrder) :
    ((NormalizeOrder orders).take (derivedCount orders)).map body =
      (batchItems orders).map fun p => itemLine 0 p.1 p.2 := by
  rw [List.map_take, NormalizeOrder_body, List.take_left']
  rw [List.length_map, length_batchItems]

/-- The lines after the first `D + 1` are the cleaner lines. -/
theorem NormalizeOrder_drop (orders : List InputOrder) :
    ((NormalizeOrder orders).drop (derivedCount orders + 1)).map body =
      (loopState orders).cleannerMapOrder.map fun k =>
        freeLine 0 k (((loopState orders).cleannerMap k).getD 0) := by
  rw [List.map_drop, NormalizeOrder_body, ← List.singleton_append, ← List.append_assoc,
    List.drop_left']
  rw [List.length_append, List.length_map, length_batchItems, List.length_singleton]

theorem output_derived_line (orders : List InputOrder) {i : Nat} {l : CleanedOrder}
    (hi : i < derivedCount orders) (hl : (NormalizeOrder orders)[i]? = some l) :
    ∃ p, (batchItems orders)[i]? = some p ∧ body l = itemLine 0 p.1 p.2 := by
  have h := NormalizeOrder_getElem? orders i
  rw [hl, List.getElem?_append_left (by rw [List.length_map, length_batchItems]; exact hi),
    List.getElem?_map] at h
  cases hp : (batchItems orders)[i]? with
  | none => rw [hp] at h; simp at h
  | some p =>
    rw [hp] at h
    exact ⟨p, rfl, by simpa using h⟩

theorem output_cloth_line (orders : List InputOrder) :
    ∃ l, (NormalizeOrder orders)[derivedCount orders]? = some l ∧
      body l = freeLine 0 wipingCloth (sumInt (orders.map orderTotal)) := by
  have h := NormalizeOrder_getElem? orders (derivedCount orders)
  rw [List.getElem?_append_right (by rw [List.length_map, length_batchItems]),
    List.length_map, length_batchItems, Nat.sub_self] at h
  cases hl : (NormalizeOrder orders)[derivedCount orders]? with
  | none => rw [hl] at h; simp at h
  | some l =>
    rw [hl] at h
    exact ⟨l, rfl, by simpa using h⟩

theorem output_cleanner_line (orders : List InputOrder) {i : Nat} {l : CleanedOrder}
    (hi : derivedCount orders < i) (hl : (NormalizeOrder orders)[i]? = some l) :
    ∃ k, (loopState orders).cleannerMapOrder[i - derivedCount orders - 1]? = some k ∧
      body l = freeLine 0 k (((loopState orders).cleannerMap k).getD 0) := by
  have h := NormalizeOrder_getElem? orders i
  rw [hl, List.getElem?_append_right (by rw [List.length_map, length_batchItems]; omega),
    List.length_map, length_batchItems] at h
  obtain ⟨j, hj⟩ : ∃ j, i - derivedCount orders = j + 1 := ⟨i - derivedCount orders - 1, by omega⟩
  rw [hj, List.getElem?_cons_succ, List.getElem?_map] at h
  have hj2 : i - derivedCount orders - 1 = j := by omega
  rw [hj2]
  cases hk : (loopState orders).cleannerMapOrder[j]? with
  | none => rw [hk] at h; simp at h
  | some k =>
    rw [hk] at h
    exact ⟨k, rfl, by simpa using h⟩

/-- The fields of a line other than `No` are those of its body. -/
theorem eq_of_body_eq {l l' : CleanedOrder} (h : body l = l') :
    l.ProductId = l'.ProductId ∧ l.MaterialId = l'.MaterialId ∧ l.ModelId = l'.ModelId ∧
      l.Qty = l'.Qty ∧ l.UnitPrice = l'.UnitPrice ∧ l.TotalPrice = l'.TotalPrice := by
  subst h
  exact ⟨rfl, rfl, rfl, rfl, rfl, rfl⟩

/-! ## Quantities -/

theorem wrapInt_add_congr {a b b' : Int} (h : wrapInt b = wrapInt b') :
    wrapInt (a + b) = wrapInt (a + b') := by
  rw [← wrapInt_add_right a b, h, wrapInt_add_right]

theorem orderTotal_eq (o : InputOrder) :
    orderTotal o = wrapInt ((orderItems o).map fun item => item.2).sum := by
  rw [orderTotal, sumInt_eq]

/-- The running total over the batch is the sum of the quantities of all items. -/
theorem sumInt_orderTotal (orders : List InputOrder) :
    sumInt (orders.map orderTotal) = wrapInt ((batchItems orders).map fun p => p.2.2).sum := by
  rw [sumInt_eq]
  induction orders with
  | nil => rfl
  | cons o orders ih =>
    simp only [List.map_cons, List.sum_cons, batchItems, List.flatMap_cons, List.map_append,
      List.sum_append, List.map_map] at ih ⊢
    rw [wrapInt_add_congr ih, orderTotal_eq, wrapInt_add_left]
    rfl

theorem NormalizeOrder_take_Qty (orders : List InputOrder) :
    ((NormalizeOrder orders).take (derivedCount orders)).map (fun l => l.Qty) =
      (batchItems orders).map fun p => p.2.2 := by
  have h := congrArg (List.map fun l : CleanedOrder => l.Qty) (NormalizeOrder_take orders)
  rw [List.map_map, List.map_map] at h
  exact h

/-! ## Product ids -/

theorem itemLine_ProductId_ne_wipingCloth (no u : Int) (item : Str × Int) :
    (itemLine no u item).ProductId ≠ wipingCloth := by
  intro h
  have hc := congrArg (List.count '-') h
  simp only [itemLine, List.count_append, List.count_cons_self] at hc
  have hw : List.count '-' wipingCloth = 1 := by decide
  omega

theorem append_cleannerSuffix_ne_wipingCloth (t : Str) : t ++ cleannerSuffix ≠ wipingCloth := by
  intro h
  have hr := congrArg List.getLast? h
  rw [List.getLast?_append] at hr
  have h1 : List.getLast? cleannerSuffix = some 'R' := by decide
  have h2 : List.getLast? wipingCloth = some 'H' := by decide
  rw [h1, h2] at hr
  have hr2 : some 'R' = some 'H' := hr
  exact absurd hr2 (by decide)

theorem mem_cleannerMapOrder (orders : List InputOrder) (k : Str) :
    k ∈ (loopState orders).cleannerMapOrder ↔
      k ∈ (batchItems orders).map (fun p => itemKey p.2) := by
  rw [loopState_eq]
  exact tally_mem_cleannerMapOrder _ (batchItems_range orders) k

/-! ## Claims on `NormalizeOrder` -/

/-- C1: the output is numbered contiguously from 1: the line at 0-based position `i` has
`No = i + 1`, whatever part of the output it belongs to. (The counter is a Go `int`; a
slice has fewer than `2^63` elements, so the counter never wraps.) -/
theorem NormalizeOrder_numbering (orders : List InputOrder)
    (hlen : (NormalizeOrder orders).length < 2 ^ 63) (i : Nat) (l : CleanedOrder)
    (hl : (NormalizeOrder orders)[i]? = some l) : l.No = (i : Int) + 1 := by
  obtain ⟨hi, rfl⟩ := List.getElem?_eq_some.1 hl
  rw [NormalizeOrder_No orders i hi]
  apply wrapInt_of_range
  · unfold minInt; omega
  · unfold maxInt; omega

theorem NormalizeOrder_numbering_witness :
    ∃ l, (NormalizeOrder case5)[5]? = some l ∧ l.No = 6 :=
  ⟨_, rfl, NormalizeOrder_numbering case5 (by decide) 5 _ rfl⟩

/-- C2: exactly one line has `ProductId = "WIPING-CLOTH"`; it stands at index `D`, right
after the `D` order-derived lines (`D` being the number of tokens of all orders), its
`Qty` is the sum (in Go `int` arithmetic) of the `Qty` of the `D` lines before it, and its
`UnitPrice` and `TotalPrice` are 0. -/
theorem NormalizeOrder_wipingCloth (orders : List InputOrder) :
    ∃ cloth, (NormalizeOrder orders)[derivedCount orders]? = some cloth ∧
      cloth.ProductId = wipingCloth ∧
      cloth.Qty =
        wrapInt (((NormalizeOrder orders).take (derivedCount orders)).map fun l => l.Qty).sum ∧
      cloth.UnitPrice = 0 ∧ cloth.TotalPrice = 0 ∧
      ∀ i l, (NormalizeOrder orders)[i]? = some l → l.ProductId = wipingCloth →
        i = derivedCount orders := by
  obtain ⟨cloth, hc, hb⟩ := output_cloth_line orders
  obtain ⟨hp, -, -, hq, hu, ht⟩ := eq_of_body_eq hb
  refine ⟨cloth, hc, hp, ?_, hu, ht, ?_⟩
  · rw [hq, NormalizeOrder_take_Qty]
    exact sumInt_orderTotal orders
  · intro i l hl hw
    rcases Nat.lt_trichotomy i (derivedCount orders) with hi | hi | hi
    · obtain ⟨p, -, hb⟩ := output_derived_line orders hi hl
      rw [(eq_of_body_eq hb).1] at hw
      exact absurd hw (itemLine_ProductId_ne_wipingCloth _ _ _)
    · exact hi
    · obtain ⟨k, hk, hb⟩ := output_cleanner_line orders hi hl
      rw [(eq_of_body_eq hb).1] at hw
      have hmem : k ∈ (loopState orders).cleannerMapOrder := List.getElem?_mem hk
      rw [mem_cleannerMapOrder, List.mem_map] at hmem
      obtain ⟨p, -, rfl⟩ := hmem
      exact absurd hw (append_cleannerSuffix_ne_wipingCloth _)

theorem NormalizeOrder_wipingCloth_witness :
    ∃ cloth, (NormalizeOrder case5)[3]? = some cloth ∧ cloth.ProductId = wipingCloth ∧
      cloth.Qty = 3 :=
  (NormalizeOrder_wipingCloth case5).imp fun _ h => ⟨h.1, h.2.1, h.2.2.1.trans (by decide)⟩

theorem batchItems_keys (orders : List InputOrder) :
    (batchItems orders).map (fun p => itemKey p.2) = batchKeys orders := by
  unfold batchKeys
  induction orders with
  | nil => rfl
  | cons o orders ih =>
    simp only [batchItems, batchTextures, List.flatMap_cons, List.map_append, List.map_map,
      orderItems] at ih ⊢
    rw [ih]
    rfl

theorem cleannerIds_eq (orders : List InputOrder) :
    cleannerIds orders = (loopState orders).cleannerMapOrder := by
  have h := congrArg (List.map fun l : CleanedOrder => l.ProductId) (NormalizeOrder_drop orders)
  rw [List.map_map, List.map_map] at h
  rw [cleannerIds]
  refine h.trans ?_
  exact List.map_id _

theorem append_cleannerSuffix_injective :
    Function.Injective fun t : Str => t ++ cleannerSuffix :=
  fun _ _ h => List.append_cancel_right h

/-- C3: the product ids of the lines after the wiping-cloth line are exactly the keys
`texture ++ "-CLEANNER"` of the items of the batch, each distinct key once, in the order
of the first occurrence of the keys among the items (orders in input order, tokens in
split order); so there are as many cleaner lines as distinct textures. -/
theorem NormalizeOrder_cleanners (orders : List InputOrder) :
    (∀ k, k ∈ cleannerIds orders ↔ k ∈ batchKeys orders) ∧
      (cleannerIds orders).Nodup ∧
      (cleannerIds orders).Pairwise
        (fun a b => firstIndex a (batchKeys orders) < firstIndex b (batchKeys orders)) ∧
      (cleannerIds orders).length = (batchTextures orders).dedup.length := by
  have hmem : ∀ k, k ∈ cleannerIds orders ↔ k ∈ batchKeys orders := by
    intro k
    rw [cleannerIds_eq, mem_cleannerMapOrder, batchItems_keys]
  have hpw : (cleannerIds orders).Pairwise
      (fun a b => firstIndex a (batchKeys orders) < firstIndex b (batchKeys orders)) := by
    have h := tally_pairwise_cleannerMapOrder (batchItems orders) (batchItems_range orders)
    rw [batchItems_keys] at h
    rw [cleannerIds_eq, loopState_eq]
    exact h
  have hnd : (cleannerIds orders).Nodup :=
    hpw.imp fun {a b} hab e => by rw [e] at hab; exact Nat.lt_irrefl _ hab
  refine ⟨hmem, hnd, hpw, ?_⟩
  have hperm : (cleannerIds orders).Perm (batchKeys orders).dedup :=
    (List.perm_ext_iff_of_nodup hnd (List.nodup_dedup _)).2 fun k => by
      rw [hmem, List.mem_dedup]
  rw [hperm.length_eq, batchKeys, List.dedup_map_of_injective append_cleannerSuffix_injective,
    List.length_map]

theorem batchItems_textures (orders : List InputOrder) :
    (batchItems orders).map (fun p => (splitProductDetail p.2.1).2.1) = batchTextures orders := by
  induction orders with
  | nil => rfl
  | cons o orders ih =>
    simp only [batchItems, batchTextures, List.flatMap_cons, List.map_append, List.map_map,
      orderItems] at ih ⊢
    rw [ih]
    rfl

theorem zip_filter_map {α β γ : Type} (f : α → Int) (g : β → Int) (t : β → γ) (P : γ → Bool)
    (xs : List α) (ys : List β) (h : xs.map f = ys.map g) :
    ((xs.zip (ys.map t)).filter fun p => P p.2).map (fun p => f p.1) =
      (ys.filter fun y => P (t y)).map g := by
  induction ys generalizing xs with
  | nil => simp
  | cons y ys ih =>
    cases xs with
    | nil => simp at h
    | cons x xs =>
      simp only [List.map_cons, List.cons.injEq] at h
      simp only [List.map_cons, List.zip_cons_cons, List.filter_cons]
      cases hP : P (t y) with
      | true => simp only [if_true, List.map_cons, h.1, ih xs h.2]
      | false => simpa using ih xs h.2

theorem loopState_cleannerMap (orders : List InputOrder) (k : Str) :
    (loopState orders).cleannerMap k =
      if k ∈ batchKeys orders then
        some (wrapInt
          (((batchItems orders).filter fun p => itemKey p.2 = k).map fun p => p.2.2).sum)
      else none := by
  rw [← batchItems_keys, ← tally_cleannerMap _ (batchItems_range orders), loopState_eq]

/-- C4: a cleaner line with product id `k` has as `Qty` the sum (in Go `int` arithmetic)
of the `Qty` of the order-derived lines whose item has a texture segment `t` with
`t ++ "-CLEANNER" = k`, over all orders of the batch, and its `UnitPrice` and
`TotalPrice` are 0. The order-derived lines are the first `D` lines, paired here with the
textures of their items. -/
theorem NormalizeOrder_cleanner_qty (orders : List InputOrder) (j : Nat) (l : CleanedOrder)
    (hj : derivedCount orders < j) (hl : (NormalizeOrder orders)[j]? = some l) :
    l.Qty =
        wrapInt
          (((((NormalizeOrder orders).take (derivedCount orders)).zip (batchTextures orders)).filter
            fun p => p.2 ++ cleannerSuffix = l.ProductId).map fun p => p.1.Qty).sum ∧
      l.UnitPrice = 0 ∧ l.TotalPrice = 0 := by
  obtain ⟨k, hk, hb⟩ := output_cleanner_line orders hj hl
  obtain ⟨hp, -, -, hq, hu, ht⟩ := eq_of_body_eq hb
  refine ⟨?_, hu, ht⟩
  have hmem : k ∈ batchKeys orders := by
    rw [← batchItems_keys, ← mem_cleannerMapOrder]
    exact List.getElem?_mem hk
  have hsum := zip_filter_map (fun l : CleanedOrder => l.Qty) (fun p : Int × Str × Int => p.2.2)
    (fun p : Int × Str × Int => (splitProductDetail p.2.1).2.1)
    (fun t : Str => decide (t ++ cleannerSuffix = k))
    ((NormalizeOrder orders).take (derivedCount orders)) (batchItems orders)
    (NormalizeOrder_take_Qty orders)
  rw [batchItems_textures] at hsum
  have hp2 : l.ProductId = k := hp
  have hq2 : l.Qty = ((loopState orders).cleannerMap k).getD 0 := hq
  rw [hq2, hp2, loopState_cleannerMap, if_pos hmem, Option.getD_some]
  exact (congrArg (fun x => wrapInt (List.sum x)) hsum).symm

theorem NormalizeOrder_cleanner_qty_witness :
    ∃ l, (NormalizeOrder case5)[4]? = some l ∧ l.ProductId = "CLEAR-CLEANNER".toList ∧
      l.Qty = 2 ∧ l.UnitPrice = 0 ∧ l.TotalPrice = 0 :=
  ⟨_, rfl, rfl,
    (NormalizeOrder_cleanner_qty case5 4 _ (by decide) rfl).1.trans (by decide),
    (NormalizeOrder_cleanner_qty case5 4 _ (by decide) rfl).2⟩

/-- C5: every line of the output has `TotalPrice = UnitPrice * Qty` (Go `int`
multiplication), and the synthesized lines (the wiping cloth and the cleaners, at the
indices from `D` on) have `UnitPrice = 0` and `TotalPrice = 0`. -/
theorem NormalizeOrder_totalPrice (orders : List InputOrder) :
    (∀ l ∈ NormalizeOrder orders, l.TotalPrice = mulInt l.UnitPrice l.Qty) ∧
      ∀ i l, derivedCount orders ≤ i → (NormalizeOrder orders)[i]? = some l →
        l.UnitPrice = 0 ∧ l.TotalPrice = 0 := by
  have hfree : ∀ i l, derivedCount orders ≤ i → (NormalizeOrder orders)[i]? = some l →
      l.UnitPrice = 0 ∧ l.TotalPrice = 0 := by
    intro i l hi hl
    rcases Nat.eq_or_lt_of_le hi with hi | hi
    · obtain ⟨c, hc, hb⟩ := output_cloth_line orders
      rw [hi, hl] at hc
      cases hc
      exact ⟨(eq_of_body_eq hb).2.2.2.2.1, (eq_of_body_eq hb).2.2.2.2.2⟩
    · obtain ⟨k, -, hb⟩ := output_cleanner_line orders hi hl
      exact ⟨(eq_of_body_eq hb).2.2.2.2.1, (eq_of_body_eq hb).2.2.2.2.2⟩
  refine ⟨?_, hfree⟩
  intro l hl
  obtain ⟨i, hi⟩ := List.mem_iff_getElem?.1 hl
  rcases Nat.lt_or_ge i (derivedCount orders) with h | h
  · obtain ⟨p, -, hb⟩ := output_derived_line orders h hi
    obtain ⟨-, -, -, hq, hu, ht⟩ := eq_of_body_eq hb
    rw [ht, hu, hq]
    rfl
  · obtain ⟨hu, ht⟩ := hfree i l h hi
    rw [hu, ht, mulInt_zero_left]

theorem NormalizeOrder_totalPrice_witness :
    (∀ l ∈ NormalizeOrder case5, l.TotalPrice = mulInt l.UnitPrice l.Qty) ∧
      ∃ l, (NormalizeOrder case5)[3]? = some l ∧ l.UnitPrice = 0 ∧ l.TotalPrice = 0 :=
  ⟨(NormalizeOrder_totalPrice case5).1,
    _, rfl, (NormalizeOrder_totalPrice case5).2 3 _ (by decide) rfl⟩

/-! ## The lines of one order -/

theorem derivedCount_append (pre post : List InputOrder) (o : InputOrder) :
    derivedCount (pre ++ o :: post) =
      derivedCount pre + (splitProductID o.PlatformProductId).length + derivedCount post := by
  simp [derivedCount]
  omega

theorem length_orderItems (o : InputOrder) :
    (orderItems o).length = (splitProductID o.PlatformProductId).length := by
  simp [orderItems]

theorem batchItems_append (pre post : List InputOrder) (o : InputOrder) :
    batchItems (pre ++ o :: post) =
      batchItems pre ++
        ((orderItems o).map (fun item => (orderUnitPrice o, item)) ++ batchItems post) := by
  simp [batchItems]

/-- The line at an index that belongs to the order `o` of the batch `pre ++ o :: post`
is the line of one of the items of `o`, at the unit price of `o`. -/
theorem output_order_line (pre post : List InputOrder) (o : InputOrder) {i : Nat}
    {l : CleanedOrder} (h1 : derivedCount pre ≤ i)
    (h2 : i < derivedCount pre + (splitProductID o.PlatformProductId).length)
    (hl : (NormalizeOrder (pre ++ o :: post))[i]? = some l) :
    ∃ item, (orderItems o)[i - derivedCount pre]? = some item ∧
      body l = itemLine 0 (orderUnitPrice o) item := by
  have hi : i < derivedCount (pre ++ o :: post) := by rw [derivedCount_append]; omega
  obtain ⟨p, hp, hb⟩ := output_derived_line _ hi hl
  rw [batchItems_append, List.getElem?_append_right (by rw [length_batchItems]; exact h1),
    length_batchItems,
    List.getElem?_append_left (by rw [List.length_map, length_orderItems]; omega),
    List.getElem?_map] at hp
  cases hit : (orderItems o)[i - derivedCount pre]? with
  | none => rw [hit] at hp; simp at hp
  | some item =>
    rw [hit] at hp
    simp only [Option.map_some', Option.some.injEq] at hp
    subst hp
    exact ⟨item, rfl, hb⟩

theorem orderTotal_eq_expanded (o : InputOrder) : orderTotal o = sumInt (expandedQuantities o) := by
  rw [orderTotal, expandedQuantities, orderItems, List.map_map]
  rfl

theorem tdiv_range {a b : Int} (ha : minInt ≤ a ∧ a ≤ maxInt) (hb : 0 < b) :
    minInt ≤ Int.tdiv a b ∧ Int.tdiv a b ≤ maxInt := by
  unfold minInt maxInt at *
  rcases Int.le_total 0 a with h | h
  · have h1 := Int.tdiv_nonneg h (Int.le_of_lt hb)
    have h2 : Int.tdiv a b ≤ a := by
      rw [Int.tdiv_eq_ediv h (Int.le_of_lt hb)]
      exact Int.ediv_le_self b h
    omega
  · have hn : 0 ≤ -a := by omega
    have h1 := Int.tdiv_nonneg hn (Int.le_of_lt hb)
    have h2 : Int.tdiv (-a) b ≤ -a := by
      rw [Int.tdiv_eq_ediv hn (Int.le_of_lt hb)]
      exact Int.ediv_le_self b hn
    rw [Int.neg_tdiv] at h1 h2
    omega

/-- C6, as stated, fails: the order `"A*-3"` with `Qty = 1` and `TotalPrice = 100` has
`Qty ≥ 0` and the total `-3` (as a mathematical sum and as the code computes it), which
is not 0, but its line has `UnitPrice = 0`, not `100 / -3 = -33`. -/
theorem NormalizeOrder_unitPrice_counterexample :
    0 ≤ orderNeg.Qty ∧
      ((splitProductID orderNeg.PlatformProductId).map
        fun token => orderNeg.Qty * (extractQuantity token).2).sum = -3 ∧
      sumInt (expandedQuantities orderNeg) = -3 ∧
      sumInt (expandedQuantities orderNeg) ≠ 0 ∧
      Int.tdiv orderNeg.TotalPrice (sumInt (expandedQuantities orderNeg)) = -33 ∧
      ∃ l, (NormalizeOrder [orderNeg])[0]? = some l ∧ l.UnitPrice = 0 ∧
        l.UnitPrice ≠ Int.tdiv orderNeg.TotalPrice (sumInt (expandedQuantities orderNeg)) := by
  refine ⟨by decide, by decide, by decide, by decide, by decide, _, rfl, by decide, by decide⟩

/-- C6, amended: for an order with `Qty ≥ 0` (its `TotalPrice` being a Go `int`), let
`total` be the sum over its tokens of `Qty` times the extracted multiplier, as the code
computes it; whenever `total` is greater than 0, every line derived from that order has
`UnitPrice = TotalPrice / total`, the quotient truncated toward zero. -/
theorem NormalizeOrder_unitPrice (pre post : List InputOrder) (o : InputOrder)
    (_hq : 0 ≤ o.Qty) (hp : minInt ≤ o.TotalPrice ∧ o.TotalPrice ≤ maxInt) (total : Int)
    (htotal : total = sumInt (expandedQuantities o)) (ht : 0 < total) (i : Nat)
    (l : CleanedOrder) (h1 : derivedCount pre ≤ i)
    (h2 : i < derivedCount pre + (splitProductID o.PlatformProductId).length)
    (hl : (NormalizeOrder (pre ++ o :: post))[i]? = some l) :
    l.UnitPrice = Int.tdiv o.TotalPrice total := by
  obtain ⟨item, -, hb⟩ := output_order_line pre post o h1 h2 hl
  rw [(eq_of_body_eq hb).2.2.2.2.1]
  show orderUnitPrice o = _
  rw [← orderTotal_eq_expanded] at htotal
  rw [orderUnitPrice, dif_pos (htotal ▸ ht), divInt, ← htotal]
  exact wrapInt_of_range (tdiv_range hp ht).1 (tdiv_range hp ht).2

theorem NormalizeOrder_unitPrice_witness :
    ∃ l, (NormalizeOrder [orderCase3])[0]? = some l ∧ l.UnitPrice = 30 :=
  ⟨_, rfl,
    (NormalizeOrder_unitPrice [] [] orderCase3 (by decide) (by decide) 3 (by decide) (by decide)
      0 _ (by decide) (by decide) rfl).trans (by decide)⟩

/-- C7: no division by zero: for an order whose expanded quantities sum to 0 (for
example an order with `Qty = 0`), the function, which is total, still emits one line for
each token of that order, and each of these lines has `UnitPrice = 0` and
`TotalPrice = 0`. -/
theorem NormalizeOrder_zero_total (pre post : List InputOrder) (o : InputOrder)
    (h0 : sumInt (expandedQuantities o) = 0) (i : Nat)
    (hi : i < (splitProductID o.PlatformProductId).length) :
    ∃ l, (NormalizeOrder (pre ++ o :: post))[derivedCount pre + i]? = some l ∧
      l.UnitPrice = 0 ∧ l.TotalPrice = 0 := by
  have hlen : derivedCount pre + i < (NormalizeOrder (pre ++ o :: post)).length := by
    rw [length_NormalizeOrder, derivedCount_append]
    omega
  refine ⟨_, List.getElem?_eq_getElem hlen, ?_⟩
  obtain ⟨item, -, hb⟩ := output_order_line pre post o (Nat.le_add_right _ i)
    (Nat.add_lt_add_left hi _) (List.getElem?_eq_getElem hlen)
  obtain ⟨-, -, -, -, hu, ht⟩ := eq_of_body_eq hb
  have hup : orderUnitPrice o = 0 := by
    have hz : ¬ orderTotal o > 0 := by rw [orderTotal_eq_expanded, h0]; decide
    rw [orderUnitPrice, dif_neg hz]
  rw [hu, ht]
  show orderUnitPrice o = 0 ∧ mulInt (orderUnitPrice o) item.2 = 0
  rw [hup, mulInt_zero_left]
  exact ⟨rfl, rfl⟩

theorem NormalizeOrder_zero_total_witness :
    ∃ l, (NormalizeOrder (case1 ++ orderZero :: case5))[1 + 1]? = some l ∧
      l.UnitPrice = 0 ∧ l.TotalPrice = 0 :=
  NormalizeOrder_zero_total case1 case5 orderZero (by decide) 1 (by decide)

/-- C8: the order-derived part of the output (its first `D` lines) is the
concatenation, over the orders in input order, of one line per token of
`splitProductID` in split order; for a token with `(code, n) = extractQuantity token` and
`(f, t, m) = splitProductDetail code` the line has `ProductId = f-t-m`,
`MaterialId = f-t`, `ModelId = m` and `Qty = order.Qty * n` (Go `int` multiplication). -/
theorem NormalizeOrder_derived (orders : List InputOrder) :
    ((NormalizeOrder orders).take (derivedCount orders)).map
        (fun l => (l.ProductId, l.MaterialId, l.ModelId, l.Qty)) =
      orders.flatMap fun o =>
        (splitProductID o.PlatformProductId).map fun token =>
          ((splitProductDetail (extractQuantity token).1).1 ++
              '-' :: (splitProductDetail (extractQuantity token).1).2.1 ++
              '-' :: (splitProductDetail (extractQuantity token).1).2.2,
            (splitProductDetail (extractQuantity token).1).1 ++
              '-' :: (splitProductDetail (extractQuantity token).1).2.1,
            (splitProductDetail (extractQuantity token).1).2.2,
            mulInt o.Qty (extractQuantity token).2) := by
  have h := congrArg
    (List.map fun l : CleanedOrder => (l.ProductId, l.MaterialId, l.ModelId, l.Qty))
    (NormalizeOrder_take orders)
  rw [List.map_map, List.map_map] at h
  refine h.trans ?_
  clear h
  induction orders with
  | nil => rfl
  | cons o orders ih =>
    simp only [batchItems, List.flatMap_cons, List.map_append, List.map_map, orderItems] at ih ⊢
    rw [ih]
    rfl

/-! ## `strings.SplitN` and `splitProductDetail` -/

theorem SplitN_one (sep : Char) (s : Str) : SplitN sep 1 s = [s] := by
  cases s <;> rfl

theorem SplitN_of_not_mem {sep : Char} {s : Str} (n : Nat) (h : sep ∉ s) :
    SplitN sep (n + 1) s = [s] := by
  cases n with
  | zero => exact SplitN_one sep s
  | succ n =>
    induction s with
    | nil => rfl
    | cons c cs ih =>
      have hc : c ≠ sep := fun e => h (by simp [e])
      have hcs : sep ∉ cs := fun e => h (List.mem_cons_of_mem _ e)
      simp [SplitN, hc, ih hcs]

theorem SplitN_append_sep {sep : Char} {a : Str} (n : Nat) (b : Str) (h : sep ∉ a) :
    SplitN sep (n + 2) (a ++ sep :: b) = a :: SplitN sep (n + 1) b := by
  induction a with
  | nil => simp [SplitN]
  | cons c cs ih =>
    have hc : c ≠ sep := fun e => h (by simp [e])
    have hcs : sep ∉ cs := fun e => h (List.mem_cons_of_mem _ e)
    simp [SplitN, hc, ih hcs]

theorem splitProductDetail_three {a b : Str} (c : Str) (ha : '-' ∉ a) (hb : '-' ∉ b) :
    splitProductDetail (a ++ '-' :: b ++ '-' :: c) = (a, b, c) := by
  have h : SplitN '-' 3 (a ++ '-' :: b ++ '-' :: c) = [a, b, c] := by
    rw [List.append_assoc, List.cons_append, SplitN_append_sep 1 _ ha,
      SplitN_append_sep 0 _ hb, SplitN_one]
  rw [splitProductDetail, h]
  rfl

/-- C11: `splitProductDetail` splits on the first two `-` only: for `a` and `b` without
`-` and any `c` (which may contain `-`), `a-b-c` gives `(a, b, c)`; `a-b` gives
`(a, b, "")`; `a` gives `(a, "", "")`. -/
theorem splitProductDetail_segments (a b : Str) (ha : '-' ∉ a) (hb : '-' ∉ b) :
    (∀ c : Str, splitProductDetail (a ++ '-' :: b ++ '-' :: c) = (a, b, c)) ∧
      splitProductDetail (a ++ '-' :: b) = (a, b, []) ∧
      splitProductDetail a = (a, [], []) := by
  refine ⟨fun c => splitProductDetail_three c ha hb, ?_, ?_⟩
  · have h : SplitN '-' 3 (a ++ '-' :: b) = [a, b] := by
      rw [SplitN_append_sep 1 _ ha, SplitN_of_not_mem 1 hb]
    rw [splitProductDetail, h]
    rfl
  · have h : SplitN '-' 3 a = [a] := SplitN_of_not_mem 2 ha
    rw [splitProductDetail, h]
    rfl

theorem splitProductDetail_segments_witness :
    splitProductDetail "FG0A-PRIVACY-IPHONE16PROMAX-B".toList =
      ("FG0A".toList, "PRIVACY".toList, "IPHONE16PROMAX-B".toList) :=
  (splitProductDetail_segments "FG0A".toList "PRIVACY".toList (by decide) (by decide)).1
    "IPHONE16PROMAX-B".toList

theorem exists_two_dashes {s : Str} (h : 2 ≤ s.count '-') :
    ∃ a b c, s = a ++ '-' :: b ++ '-' :: c ∧ '-' ∉ a ∧ '-' ∉ b := by
  have h1 : '-' ∈ s := List.count_pos_iff.1 (by omega)
  obtain ⟨a, r, rfl, ha⟩ := List.eq_append_cons_of_mem h1
  rw [List.count_append, List.count_cons_self, List.count_eq_zero_of_not_mem ha] at h
  have h2 : '-' ∈ r := List.count_pos_iff.1 (by omega)
  obtain ⟨b, c, rfl, hb⟩ := List.eq_append_cons_of_mem h2
  exact ⟨a, b, c, by simp, ha, hb⟩

/-- C12, as stated, fails: the raw string `"ABC"` has the single token `"ABC"`, whose
product code `"ABC"` decomposes into `("ABC", "", "")`; re-joined with `-` this is
`"ABC--"`, not `"ABC"`, and `"ABC--"` is the `ProductId` that `NormalizeOrder` emits. -/
theorem splitProductDetail_rejoin_counterexample :
    splitProductID "ABC".toList = ["ABC".toList] ∧
      extractQuantity "ABC".toList = ("ABC".toList, 1) ∧
      splitProductDetail "ABC".toList = ("ABC".toList, [], []) ∧
      (splitProductDetail "ABC".toList).1 ++ '-' :: (splitProductDetail "ABC".toList).2.1 ++
        '-' :: (splitProductDetail "ABC".toList).2.2 = "ABC--".toList ∧
      (splitProductDetail "ABC".toList).1 ++ '-' :: (splitProductDetail "ABC".toList).2.1 ++
        '-' :: (splitProductDetail "ABC".toList).2.2 ≠ "ABC".toList ∧
      (NormalizeOrder [orderNoDash]).map (fun l => l.ProductId) =
        ["ABC--".toList, "WIPING-CLOTH".toList, "-CLEANNER".toList] := by
  refine ⟨by decide, by decide, by decide, by decide, by decide, by decide⟩

/-- C12, amended: for every product code `s` that contains at least two `-`, with
`(f, t, m) = splitProductDetail s`, re-joining the three segments with `-` reproduces the
code, `f-t-m = s`; so the `ProductId` of the line built for an item with that code is the
code. -/
theorem splitProductDetail_rejoin (s : Str) (h : 2 ≤ s.count '-') :
    (splitProductDetail s).1 ++ '-' :: (splitProductDetail s).2.1 ++
        '-' :: (splitProductDetail s).2.2 = s ∧
      ∀ (no u q : Int), (itemLine no u (s, q)).ProductId = s := by
  obtain ⟨a, b, c, rfl, ha, hb⟩ := exists_two_dashes h
  have hd := splitProductDetail_three c ha hb
  have hj : (splitProductDetail (a ++ '-' :: b ++ '-' :: c)).1 ++
      '-' :: (splitProductDetail (a ++ '-' :: b ++ '-' :: c)).2.1 ++
      '-' :: (splitProductDetail (a ++ '-' :: b ++ '-' :: c)).2.2 = a ++ '-' :: b ++ '-' :: c := by
    rw [hd]
  exact ⟨hj, fun _ _ _ => hj⟩

theorem splitProductDetail_rejoin_witness :
    (splitProductDetail "FG0A-CLEAR-OPPOA3-B".toList).1 ++
        '-' :: (splitProductDetail "FG0A-CLEAR-OPPOA3-B".toList).2.1 ++
        '-' :: (splitProductDetail "FG0A-CLEAR-OPPOA3-B".toList).2.2 =
      "FG0A-CLEAR-OPPOA3-B".toList :=
  (splitProductDetail_rejoin "FG0A-CLEAR-OPPOA3-B".toList (by decide)).1

/-! ## `splitProductID`: the number of tokens -/

theorem count_slash_replaceNoise (s : Str) :
    (replaceNoise s).count '/' = s.count '/' := by
  induction s using replaceNoise.induct with
  | case1 rest ih => rw [replaceNoise.eq_1, ih]; simp [List.count_cons]
  | case2 rest h ih => rw [replaceNoise.eq_2 rest h, ih]; simp [List.count_cons]
  | case3 c rest h1 h2 ih =>
    rw [replaceNoise.eq_3 c rest h1 h2, List.count_cons, List.count_cons, ih]
  | case4 => rfl

theorem length_splitProductID (s : Str) : (splitProductID s).length = s.count '/' + 1 := by
  rw [splitProductID, List.length_map, length_Split, count_slash_replaceNoise]

/-- C14, as stated, fails on the empty input: `splitProductID ""` is not the empty
sequence but the sequence of one token, the empty string (as `strings.Split("", "/")`
returns `[""]`). -/
theorem splitProductID_empty_counterexample :
    splitProductID [] = [[]] ∧ (splitProductID []).length = 1 ∧ splitProductID [] ≠ [] := by
  refine ⟨by decide, by decide, by decide⟩

/-- C14, amended: `splitProductID` returns a non-empty sequence of tokens for every
input string, and for the empty input string the sequence of one token, the empty
string. -/
theorem splitProductID_nonempty :
    (∀ s : Str, splitProductID s ≠ []) ∧ splitProductID [] = [[]] := by
  refine ⟨fun s h => ?_, by decide⟩
  have hl := length_splitProductID s
  rw [h] at hl
  simp at hl

/-- C19: for every raw product string `s` the number of tokens of `splitProductID s` is
1 plus the number of `/` in `s`: removing the noise neither creates nor destroys a
separator, and no piece is dropped, even when empty (`"a//b"` has three tokens, the
middle one empty). -/
theorem splitProductID_token_count :
    (∀ s : Str, (splitProductID s).length = s.count '/' + 1) ∧
      splitProductID "a//b".toList = ["a".toList, [], "b".toList] :=
  ⟨length_splitProductID, by decide⟩

/-! ## Scenarios -/

/-- C18: the order `"FG0A-CLEAR-OPPOA3/%20xFG0A-CLEAR-OPPOA3-B/FG0A-MATTE-OPPOA3"` with
`Qty = 1` and `TotalPrice = 120` gives exactly six lines, numbered 1 to 6: three item
lines with `Qty` 1, `UnitPrice` 40 and `TotalPrice` 40, then `WIPING-CLOTH` with `Qty` 3,
`CLEAR-CLEANNER` with `Qty` 2 and `MATTE-CLEANNER` with `Qty` 1, the synthesized lines
with zero prices and empty `MaterialId` and `ModelId`. -/
theorem NormalizeOrder_case5 (no unitPrice : Int) :
    NormalizeOrder
        [{ No := no,
           PlatformProductId :=
             "FG0A-CLEAR-OPPOA3/%20xFG0A-CLEAR-OPPOA3-B/FG0A-MATTE-OPPOA3".toList,
           Qty := 1, UnitPrice := unitPrice, TotalPrice := 120 }] =
      [{ No := 1, ProductId := "FG0A-CLEAR-OPPOA3".toList, MaterialId := "FG0A-CLEAR".toList,
         ModelId := "OPPOA3".toList, Qty := 1, UnitPrice := 40, TotalPrice := 40 },
       { No := 2, ProductId := "FG0A-CLEAR-OPPOA3-B".toList, MaterialId := "FG0A-CLEAR".toList,
         ModelId := "OPPOA3-B".toList, Qty := 1, UnitPrice := 40, TotalPrice := 40 },
       { No := 3, ProductId := "FG0A-MATTE-OPPOA3".toList, MaterialId := "FG0A-MATTE".toList,
         ModelId := "OPPOA3".toList, Qty := 1, UnitPrice := 40, TotalPrice := 40 },
       { No := 4, ProductId := "WIPING-CLOTH".toList, MaterialId := [], ModelId := [], Qty := 3,
         UnitPrice := 0, TotalPrice := 0 },
       { No := 5, ProductId := "CLEAR-CLEANNER".toList, MaterialId := [], ModelId := [], Qty := 2,
         UnitPrice := 0, TotalPrice := 0 },
       { No := 6, ProductId := "MATTE-CLEANNER".toList, MaterialId := [], ModelId := [], Qty := 1,
         UnitPrice := 0, TotalPrice := 0 }] := by
  rfl

/-- C20: on the empty batch `NormalizeOrder` returns exactly one line, the wiping cloth
with `No = 1`, `Qty = 0`, `UnitPrice = 0` and `TotalPrice = 0`, and no cleaner line. -/
theorem NormalizeOrder_empty :
    NormalizeOrder [] =
      [{ No := 1, ProductId := "WIPING-CLOTH".toList, MaterialId := [], ModelId := [], Qty := 0,
         UnitPrice := 0, TotalPrice := 0 }] := by
  decide

/-! ## `strings.Index` and the cleaning of a piece -/

theorem Index_some {sub r : Str} {i : Nat} (h : Index sub r = some i) : sub <+: r.drop i := by
  induction r generalizing i with
  | nil =>
    unfold Index at h
    split at h
    · next hp =>
      cases h
      exact List.isPrefixOf_iff_prefix.1 hp
    · cases h
  | cons c cs ih =>
    unfold Index at h
    split at h
    · next hp =>
      cases h
      exact List.isPrefixOf_iff_prefix.1 hp
    · cases hi : Index sub cs with
      | none => rw [hi] at h; cases h
      | some j =>
        rw [hi] at h
        cases h
        exact ih hi

theorem Index_none {sub r : Str} (h : Index sub r = none) : ¬ sub <:+: r := by
  induction r with
  | nil =>
    unfold Index at h
    split at h
    · cases h
    · next hp =>
      intro hin
      exact hp (List.isPrefixOf_iff_prefix.2 (List.infix_nil.1 hin ▸ List.nil_prefix))
  | cons c cs ih =>
    unfold Index at h
    split at h
    · cases h
    · next hp =>
      cases hi : Index sub cs with
      | some j => rw [hi] at h; cases h
      | none =>
        intro hin
        rcases List.infix_cons_iff.1 hin with hpre | hin2
        · exact hp (List.isPrefixOf_iff_prefix.2 hpre)
        · exact ih hi hin2

theorem cleanPiece_eq (r : Str) :
    cleanPiece r =
      match Index fg0a (trimPiece r) with
      | some index => (trimPiece r).drop index
      | none => trimPiece r := rfl

theorem TrimSpace_within (r : Str) : TrimSpace r <:+: r := by
  have h1 : TrimSpace r <+: r.dropWhile isSpace := by
    rw [← List.reverse_suffix, TrimSpace, List.reverse_reverse]
    exact List.dropWhile_suffix _
  exact h1.isInfix.trans (List.dropWhile_suffix _).isInfix

theorem TrimLeft_suffix (r : Str) (c : Char) : TrimLeft r c <:+ r := List.dropWhile_suffix _

theorem TrimRight_isPrefix (r : Str) (c : Char) : TrimRight r c <+: r := by
  rw [← List.reverse_suffix, TrimRight, List.reverse_reverse]
  exact List.dropWhile_suffix _

theorem trimPiece_within (r : Str) : trimPiece r <:+: r :=
  (TrimRight_isPrefix _ _).isInfix.trans ((TrimLeft_suffix _ _).isInfix.trans (TrimSpace_within r))

theorem cleanPiece_suffix (r : Str) : cleanPiece r <:+ trimPiece r := by
  rw [cleanPiece_eq]
  split
  · exact List.drop_suffix _ _
  · exact List.suffix_refl _

theorem cleanPiece_marker {r : Str} (h : fg0a <:+: cleanPiece r) : fg0a <+: cleanPiece r := by
  rw [cleanPiece_eq] at h ⊢
  split
  · next i hi => exact Index_some hi
  · next hi =>
    rw [hi] at h
    exact absurd h (Index_none hi)

theorem cleanPiece_of_no_marker {r : Str} (h : ¬ fg0a <:+: r) : cleanPiece r = trimPiece r := by
  rw [cleanPiece_eq]
  split
  · next i hi =>
    exact absurd (((Index_some hi).isInfix.trans (List.drop_suffix _ _).isInfix).trans
      (trimPiece_within r)) h
  · rfl

/-- C15: every token of `splitProductID` that contains the marker `"FG0A"` begins with
it; the token of a piece is a suffix of the trimmed piece (what stands before the marker
is discarded), and the token of a piece that does not contain the marker is the trimmed
piece unchanged. -/
theorem splitProductID_marker (s : Str) :
    (∀ token ∈ splitProductID s, fg0a <:+: token → fg0a <+: token) ∧
      ∀ (i : Nat) (piece : Str), (Split '/' (replaceNoise s))[i]? = some piece →
        (∃ token, (splitProductID s)[i]? = some token ∧ token <:+ trimPiece piece) ∧
          (¬ fg0a <:+: piece → (splitProductID s)[i]? = some (trimPiece piece)) := by
  constructor
  · intro token ht hin
    rw [splitProductID, List.mem_map] at ht
    obtain ⟨piece, -, rfl⟩ := ht
    exact cleanPiece_marker hin
  · intro i piece hp
    have ht : (splitProductID s)[i]? = some (cleanPiece piece) := by
      rw [splitProductID, List.getElem?_map, hp]
      rfl
    exact ⟨⟨_, ht, cleanPiece_suffix piece⟩, fun h => by rw [ht, cleanPiece_of_no_marker h]⟩

theorem splitProductID_marker_witness :
    splitProductID "x2-3&FG0A-CLEAR-IPHONE16PROMAX/ -ABC- ".toList =
        ["FG0A-CLEAR-IPHONE16PROMAX".toList, "ABC".toList] ∧
      fg0a <+: "FG0A-CLEAR-IPHONE16PROMAX".toList :=
  ⟨by decide,
    (splitProductID_marker "x2-3&FG0A-CLEAR-IPHONE16PROMAX/ -ABC- ".toList).1
      "FG0A-CLEAR-IPHONE16PROMAX".toList (by decide) ⟨[], "-CLEAR-IPHONE16PROMAX".toList, rfl⟩⟩

/-! ## The replacer -/

theorem not_mem_replaceNoise {s : Str}
    (h : ∀ a b : Str, s = a ++ '%' :: b → ∃ r, b = '2' :: '0' :: r) : '%' ∉ replaceNoise s := by
  induction s using replaceNoise.induct with
  | case1 rest ih =>
    rw [replaceNoise.eq_1]
    exact ih fun a b e => h ('%' :: '2' :: '0' :: 'x' :: a) b (by rw [e]; rfl)
  | case2 rest hx ih =>
    rw [replaceNoise.eq_2 rest hx]
    exact ih fun a b e => h ('%' :: '2' :: '0' :: a) b (by rw [e]; rfl)
  | case3 c rest h1 h2 ih =>
    rw [replaceNoise.eq_3 c rest h1 h2]
    have hc : c ≠ '%' := by
      intro e
      obtain ⟨r, hr⟩ := h [] rest (by rw [e]; rfl)
      exact h2 r e hr
    intro hm
    rcases List.mem_cons.1 hm with e | hm
    · exact hc e.symm
    · exact ih (fun a b e => h (c :: a) b (by rw [e]; rfl)) hm
  | case4 => simp [replaceNoise]

theorem mem_of_mem_Split {sep : Char} {s piece : Str} {c : Char} (hp : piece ∈ Split sep s)
    (hc : c ∈ piece) : c ∈ s := by
  induction s generalizing piece with
  | nil =>
    simp only [Split, List.mem_singleton] at hp
    subst hp
    exact hc
  | cons x xs ih =>
    unfold Split at hp
    split at hp
    · rcases List.mem_cons.1 hp with e | hp
      · subst e; simp at hc
      · exact List.mem_cons_of_mem _ (ih hp hc)
    · split at hp
      · next hnil => exact absurd hnil (Split_ne_nil _ _)
      · next q qs hq =>
        rcases List.mem_cons.1 hp with e | hp
        · subst e
          rcases List.mem_cons.1 hc with e | hc
          · subst e; exact List.mem_cons_self _ _
          · exact List.mem_cons_of_mem _ (ih (by rw [hq]; exact List.mem_cons_self _ _) hc)
        · exact List.mem_cons_of_mem _ (ih (by rw [hq]; exact List.mem_cons_of_mem _ hp) hc)

theorem mem_of_mem_splitProductID {s token : Str} {c : Char} (ht : token ∈ splitProductID s)
    (hc : c ∈ token) : c ∈ replaceNoise s := by
  rw [splitProductID, List.mem_map] at ht
  obtain ⟨piece, hp, rfl⟩ := ht
  exact mem_of_mem_Split hp
    (((cleanPiece_suffix piece).isInfix.trans (trimPiece_within piece)).subset hc)

/-- C13, as stated, fails: the replacer makes one pass, so removing the `"%20"` inside
`"%%2020"` leaves the token `"%20"`, which contains the noise substring. -/
theorem splitProductID_noise_counterexample :
    splitProductID "%%2020".toList = ["%20".toList] ∧
      ∃ token ∈ splitProductID "%%2020".toList, noise20 <:+: token :=
  ⟨by decide, noise20, by decide, List.infix_refl _⟩

theorem percent_followed {s : Str}
    (h : ∀ i : Nat, i < s.length → s[i]? = some '%' →
      s[i + 1]? = some '2' ∧ s[i + 2]? = some '0') :
    ∀ a b : Str, s = a ++ '%' :: b → ∃ r, b = '2' :: '0' :: r := by
  intro a b e
  subst e
  have hlt : a.length < (a ++ '%' :: b).length := by simp
  have hget : (a ++ '%' :: b)[a.length]? = some '%' := by
    rw [List.getElem?_append_right (Nat.le_refl _), Nat.sub_self, List.getElem?_cons_zero]
  have h0 := h a.length hlt hget
  rw [List.getElem?_append_right (by omega), List.getElem?_append_right (by omega)] at h0
  have e1 : a.length + 1 - a.length = 1 := by omega
  have e2 : a.length + 2 - a.length = 2 := by omega
  rw [e1, e2] at h0
  match b, h0 with
  | [], h0 => simp at h0
  | [x], h0 => simp at h0
  | x :: y :: r, h0 =>
    simp only [List.getElem?_cons_succ, List.getElem?_cons_zero, Option.some.injEq] at h0
    exact ⟨r, by rw [h0.1, h0.2]⟩

/-- When every `%` of the raw string is immediately followed by `20`, no token contains
`%`, hence none contains `"%20"` or `"%20x"`. -/
theorem tokens_without_percent (s : Str)
    (h : ∀ i : Nat, i < s.length → s[i]? = some '%' →
      s[i + 1]? = some '2' ∧ s[i + 2]? = some '0') :
    ∀ token ∈ splitProductID s, '%' ∉ token ∧ ¬ noise20 <:+: token ∧ ¬ noise20x <:+: token := by
  intro token ht
  have hn : '%' ∉ token := fun hc =>
    not_mem_replaceNoise (percent_followed h) (mem_of_mem_splitProductID ht hc)
  exact ⟨hn, fun hin => hn (hin.subset (by simp [noise20])),
    fun hin => hn (hin.subset (by simp [noise20x]))⟩

/-! ## Junk before the marker -/

theorem replaceNoise_cons_of_ne {c : Char} (t : Str) (hc : c ≠ '%') :
    replaceNoise (c :: t) = c :: replaceNoise t :=
  replaceNoise.eq_3 c t (fun _ e _ => hc e) (fun _ e _ => hc e)

theorem replaceNoise_append_of_not_mem {p : Str} (t : Str) (hp : '%' ∉ p) :
    replaceNoise (p ++ t) = p ++ replaceNoise t := by
  induction p with
  | nil => rfl
  | cons c cs ih =>
    have hc : c ≠ '%' := fun e => hp (by simp [e])
    have hcs : '%' ∉ cs := fun e => hp (List.mem_cons_of_mem _ e)
    rw [List.cons_append, replaceNoise_cons_of_ne _ hc, ih hcs, List.cons_append]

theorem Split_append_left {sep : Char} {p t f : Str} {rest : List Str} (hp : sep ∉ p)
    (ht : Split sep t = f :: rest) : Split sep (p ++ t) = (p ++ f) :: rest := by
  induction p with
  | nil => exact ht
  | cons c cs ih =>
    have hc : c ≠ sep := fun e => hp (by simp [e])
    have hcs : sep ∉ cs := fun e => hp (List.mem_cons_of_mem _ e)
    rw [List.cons_append, Split, if_neg hc, ih hcs]
    rfl

theorem dropWhile_append_fixed (P : Char → Bool) (q m : Str) (hm : m.dropWhile P = m) :
    (q ++ m).dropWhile P = q.dropWhile P ++ m := by
  rw [List.dropWhile_append]
  split
  · next he => rw [List.isEmpty_iff] at he; rw [he, hm, List.nil_append]
  · rfl

theorem reverse_dropWhile_append_fixed (P : Char → Bool) (l x : Str)
    (hl : l.reverse.dropWhile P = l.reverse) :
    ((l ++ x).reverse.dropWhile P).reverse = l ++ (x.reverse.dropWhile P).reverse := by
  rw [List.reverse_append, dropWhile_append_fixed P _ _ hl, List.reverse_append,
    List.reverse_reverse]

theorem Index_append_marker {q : Str} (x : Str) (h : ¬ fg0a <:+: q) :
    Index fg0a (q ++ (fg0a ++ x)) = some q.length := by
  induction q with
  | nil => simp [Index, fg0a, List.isPrefixOf]
  | cons c q ih =>
    have hq : ¬ fg0a <:+: q := fun hin => h (List.infix_cons hin)
    have hnp : fg0a.isPrefixOf (c :: (q ++ (fg0a ++ x))) = false := by
      rw [Bool.eq_false_iff]
      intro hpre
      match q, h with
      | [], _ => simp [fg0a, List.isPrefixOf] at hpre
      | [d], _ => simp [fg0a, List.isPrefixOf] at hpre
      | [d, e], _ => simp [fg0a, List.isPrefixOf] at hpre
      | d :: e :: f :: r, h =>
        simp [fg0a, List.isPrefixOf] at hpre
        obtain ⟨rfl, rfl, rfl, rfl⟩ := hpre
        exact h ⟨[], r, rfl⟩
    rw [List.cons_append, Index, if_neg (by rw [hnp]; simp), ih hq]
    rfl

/-- The token of a piece in which the first marker comes after marker-free junk `q`
does not depend on `q`. -/
theorem cleanPiece_append_marker {q : Str} (x : Str) (h : ¬ fg0a <:+: q) :
    cleanPiece (q ++ (fg0a ++ x)) =
      fg0a ++ TrimRight ((x.reverse.dropWhile isSpace).reverse) '-' := by
  have hF : ∀ P : Char → Bool, P 'F' = false → ∀ y : Str, (fg0a ++ y).dropWhile P = fg0a ++ y := by
    intro P hP y
    simp [fg0a, List.dropWhile, hP]
  have hA : ∀ P : Char → Bool, P 'A' = false → ∀ y : Str,
      (y ++ fg0a).reverse.dropWhile P = (y ++ fg0a).reverse := by
    intro P hP y
    simp [fg0a, List.dropWhile, hP]
  have h1 : TrimSpace (q ++ (fg0a ++ x)) =
      q.dropWhile isSpace ++ (fg0a ++ (x.reverse.dropWhile isSpace).reverse) := by
    rw [TrimSpace, dropWhile_append_fixed _ _ _ (hF _ (by decide) x), ← List.append_assoc,
      reverse_dropWhile_append_fixed _ _ _ (hA _ (by decide) _), List.append_assoc]
  have h2 : trimPiece (q ++ (fg0a ++ x)) =
      (q.dropWhile isSpace).dropWhile (fun c => c == '-') ++
        (fg0a ++ TrimRight ((x.reverse.dropWhile isSpace).reverse) '-') := by
    rw [trimPiece, h1, TrimLeft, dropWhile_append_fixed _ _ _ (hF _ (by decide) _), TrimRight,
      ← List.append_assoc, reverse_dropWhile_append_fixed _ _ _ (hA _ (by decide) _),
      List.append_assoc]
    rfl
  have hq : ¬ fg0a <:+: (q.dropWhile isSpace).dropWhile (fun c => c == '-') := fun hin =>
    h (hin.trans ((List.dropWhile_suffix _).isInfix.trans (List.dropWhile_suffix _).isInfix))
  rw [cleanPiece_eq, h2, Index_append_marker _ hq]
  exact List.drop_left _ _


theorem splitProductID_append_marker {p : Str} (s : Str) (h1 : '/' ∉ p) (h2 : '%' ∉ p)
    (h3 : ¬ fg0a <:+: p) : splitProductID (p ++ (fg0a ++ s)) = splitProductID (fg0a ++ s) := by
  have hr : replaceNoise (fg0a ++ s) = fg0a ++ replaceNoise s :=
    replaceNoise_append_of_not_mem s (by decide)
  cases hsp : Split '/' (replaceNoise s) with
  | nil => exact absurd hsp (Split_ne_nil _ _)
  | cons f rest =>
    have hs1 : Split '/' (fg0a ++ replaceNoise s) = (fg0a ++ f) :: rest :=
      Split_append_left (by decide) hsp
    have hs2 : Split '/' (p ++ (fg0a ++ replaceNoise s)) = (p ++ (fg0a ++ f)) :: rest :=
      Split_append_left h1 hs1
    have hnil : ¬ fg0a <:+: ([] : Str) := Index_none (by decide)
    have hc := cleanPiece_append_marker f hnil
    rw [List.nil_append] at hc
    rw [splitProductID, splitProductID, replaceNoise_append_of_not_mem _ h2, hr, hs1, hs2,
      List.map_cons, List.map_cons, cleanPiece_append_marker f h3, hc]

theorem processOrder_congr {o₁ o₂ : InputOrder}
    (hid : splitProductID o₁.PlatformProductId = splitProductID o₂.PlatformProductId)
    (hq : o₁.Qty = o₂.Qty) (hp : o₁.TotalPrice = o₂.TotalPrice) (st : State) :
    processOrder st o₁ = processOrder st o₂ := by
  have hitems : orderItems o₁ = orderItems o₂ := by rw [orderItems, orderItems, hid, hq]
  have htotal : orderTotal o₁ = orderTotal o₂ := by rw [orderTotal, orderTotal, hitems]
  have hunit : orderUnitPrice o₁ = orderUnitPrice o₂ := by
    unfold orderUnitPrice
    by_cases hpos : orderTotal o₁ > 0
    · rw [dif_pos hpos, dif_pos (htotal ▸ hpos)]
      unfold divInt
      rw [hp, htotal]
    · rw [dif_neg hpos, dif_neg (htotal ▸ hpos)]
  rw [processOrder, processOrder, hitems, htotal, hunit]

theorem NormalizeOrder_congr (pre post : List InputOrder) {o₁ o₂ : InputOrder}
    (hid : splitProductID o₁.PlatformProductId = splitProductID o₂.PlatformProductId)
    (hq : o₁.Qty = o₂.Qty) (hp : o₁.TotalPrice = o₂.TotalPrice) :
    NormalizeOrder (pre ++ o₁ :: post) = NormalizeOrder (pre ++ o₂ :: post) := by
  have h : (pre ++ o₁ :: post).foldl processOrder State.init =
      (pre ++ o₂ :: post).foldl processOrder State.init := by
    rw [List.foldl_append, List.foldl_cons, processOrder_congr hid hq hp, ← List.foldl_cons,
      ← List.foldl_append]
  unfold NormalizeOrder
  rw [h]

/-- C16: junk and dash prefixes do not change the result: for `s` beginning with
`"FG0A"` and a prefix `p` with no `/`, no `%` and no occurrence of `"FG0A"`,
`splitProductID (p ++ s) = splitProductID s`, and `NormalizeOrder` returns the same output
for two batches that differ only in one order having `p ++ s` instead of `s` as
`PlatformProductId`. -/
theorem splitProductID_junk (p s : Str) (hs : fg0a <+: s) (h1 : '/' ∉ p) (h2 : '%' ∉ p)
    (h3 : ¬ fg0a <:+: p) :
    splitProductID (p ++ s) = splitProductID s ∧
      ∀ (pre post : List InputOrder) (o : InputOrder),
        NormalizeOrder (pre ++ { o with PlatformProductId := p ++ s } :: post) =
          NormalizeOrder (pre ++ { o with PlatformProductId := s } :: post) := by
  obtain ⟨t, rfl⟩ := hs
  have h := splitProductID_append_marker t h1 h2 h3
  exact ⟨h, fun pre post o => NormalizeOrder_congr pre post h rfl rfl⟩

theorem splitProductID_junk_witness :
    splitProductID ("x2-3&".toList ++ "FG0A-CLEAR-IPHONE16PROMAX".toList) =
      splitProductID "FG0A-CLEAR-IPHONE16PROMAX".toList :=
  (splitProductID_junk "x2-3&".toList "FG0A-CLEAR-IPHONE16PROMAX".toList
    ⟨"-CLEAR-IPHONE16PROMAX".toList, rfl⟩ (by decide) (by decide) (Index_none (by decide))).1

/-! ## Sums of line prices -/

theorem wrapInt_modEq (x : Int) : wrapInt x ≡ x [ZMOD 2 ^ 64] := by
  unfold Int.ModEq wrapInt
  omega

theorem wrapInt_eq_of_modEq {a b : Int} (h : a ≡ b [ZMOD 2 ^ 64]) : wrapInt a = wrapInt b := by
  unfold Int.ModEq at h
  unfold wrapInt
  omega

theorem wrapInt_mul_right (a b : Int) : wrapInt (a * wrapInt b) = wrapInt (a * b) :=
  wrapInt_eq_of_modEq ((Int.ModEq.refl a).mul (wrapInt_modEq b))

theorem wrapInt_sum_mulInt (u : Int) (qs : List Int) :
    wrapInt (qs.map (mulInt u)).sum = wrapInt (u * qs.sum) := by
  induction qs with
  | nil => simp
  | cons q qs ih =>
    rw [List.map_cons, List.sum_cons, List.sum_cons, wrapInt_add_congr ih, mulInt,
      wrapInt_add_left, mul_add]

/-- The lines of the order `o` in the output of the batch `pre ++ o :: post`. -/
theorem output_order_slice (pre post : List InputOrder) (o : InputOrder) :
    (((NormalizeOrder (pre ++ o :: post)).drop (derivedCount pre)).take
        (splitProductID o.PlatformProductId).length).map body =
      (orderItems o).map (itemLine 0 (orderUnitPrice o)) := by
  rw [List.map_take, List.map_drop, NormalizeOrder_body, batchItems_append]
  simp only [List.map_append, List.append_assoc, List.map_map]
  rw [List.drop_left' (by rw [List.length_map, length_batchItems]),
    List.take_left' (by rw [List.length_map, length_orderItems])]
  rfl

theorem orderUnitPrice_mul_total {o : InputOrder} (hp : 0 ≤ o.TotalPrice)
    (hmax : o.TotalPrice ≤ maxInt) (ht : 0 < orderTotal o) :
    orderUnitPrice o * orderTotal o = o.TotalPrice - o.TotalPrice % orderTotal o := by
  have hmin : minInt ≤ o.TotalPrice := by unfold minInt; omega
  rw [orderUnitPrice, dif_pos ht, divInt,
    wrapInt_of_range (tdiv_range ⟨hmin, hmax⟩ ht).1 (tdiv_range ⟨hmin, hmax⟩ ht).2,
    Int.tdiv_eq_ediv hp (Int.le_of_lt ht)]
  have h := Int.ediv_add_emod o.TotalPrice (orderTotal o)
  rw [Int.mul_comm]
  omega

/-- The sum of the line prices of an order, taken in Go `int` arithmetic, is bounded by
the price of the order whatever the quantities are. -/
theorem sumInt_order_lines (pre post : List InputOrder) (o : InputOrder)
    (hp : 0 ≤ o.TotalPrice) (hmax : o.TotalPrice ≤ maxInt) (total : Int)
    (htotal : total = sumInt (expandedQuantities o)) (ht : 0 < total) (S : Int)
    (hS : S = sumInt ((((NormalizeOrder (pre ++ o :: post)).drop (derivedCount pre)).take
      (splitProductID o.PlatformProductId).length).map fun l => l.TotalPrice)) :
    o.TotalPrice - total < S ∧ S ≤ o.TotalPrice ∧ (total ∣ o.TotalPrice → S = o.TotalPrice) := by
  rw [← orderTotal_eq_expanded] at htotal
  subst htotal
  have hlines := congrArg (List.map fun l : CleanedOrder => l.TotalPrice)
    (output_order_slice pre post o)
  rw [List.map_map, List.map_map] at hlines
  have hmap : ((orderItems o).map ((fun l : CleanedOrder => l.TotalPrice) ∘
      itemLine 0 (orderUnitPrice o))) =
      ((orderItems o).map Prod.snd).map (mulInt (orderUnitPrice o)) := by
    rw [List.map_map]
    rfl
  have hS2 : S = wrapInt (orderUnitPrice o * orderTotal o) := by
    rw [hS, sumInt_eq]
    refine (congrArg (fun x => wrapInt (List.sum x)) (hlines.trans hmap)).trans ?_
    show wrapInt (((orderItems o).map Prod.snd).map (mulInt (orderUnitPrice o))).sum = _
    rw [wrapInt_sum_mulInt, ← wrapInt_mul_right, ← sumInt_eq]
    rfl
  have hmul := orderUnitPrice_mul_total hp hmax ht
  have h1 := Int.emod_nonneg o.TotalPrice (Int.ne_of_gt ht)
  have h2 := Int.emod_lt_of_pos o.TotalPrice ht
  have hS3 : S = o.TotalPrice - o.TotalPrice % orderTotal o := by
    rw [hS2, hmul]
    have hb : orderTotal o ≤ maxInt := by rw [orderTotal_eq]; exact (wrapInt_range _).2
    apply wrapInt_of_range
    · unfold minInt; unfold maxInt at hb; omega
    · omega
  refine ⟨by omega, by omega, fun hdvd => ?_⟩
  rw [hS3, Int.emod_eq_zero_of_dvd hdvd]
  omega

/-! ## The replacer, step by step -/

theorem replaceNoise_keep {c : Char} {t : Str} (h : ¬ noise20 <+: c :: t) :
    replaceNoise (c :: t) = c :: replaceNoise t := by
  apply replaceNoise.eq_3
  · intro r hc ht
    exact h ⟨'x' :: r, by rw [hc, ht]; rfl⟩
  · intro r hc ht
    exact h ⟨r, by rw [hc, ht]; rfl⟩

theorem replaceNoise_noise20x (b : Str) : replaceNoise (noise20x ++ b) = replaceNoise b :=
  replaceNoise.eq_1 b

theorem replaceNoise_noise20 (b : Str) : replaceNoise (noise20 ++ b) = replaceNoise (dropX b) := by
  cases b with
  | nil => exact replaceNoise.eq_2 [] (fun _ h => by cases h)
  | cons c r =>
    by_cases hc : c = 'x'
    · subst hc
      exact replaceNoise.eq_1 r
    · have hd : dropX (c :: r) = c :: r := by simp [dropX, hc]
      rw [hd]
      exact replaceNoise.eq_2 (c :: r) (fun _ h => hc (by cases h; rfl))

theorem replaceNoise_noise20_of_ne {b : Str} (hb : b.head? ≠ some 'x') :
    replaceNoise (noise20 ++ b) = replaceNoise b := by
  rw [replaceNoise_noise20, dropX, if_neg hb]

theorem not_noise20_isPrefix_of_ne {c : Char} (t : Str) (hc : c ≠ '%') : ¬ noise20 <+: c :: t := by
  rintro ⟨r, hr⟩
  exact hc (by cases hr; rfl)

/-- A `%` that stands before a noise substring, or before a `2` that is followed by one,
does not begin a noise substring. -/
theorem not_noise20_isPrefix_append {a : Str} (t : Str) (h : ¬ noise20 <:+: a)
    (ht : t = [] ∨ t.head? = some '%') : ∀ c r, a = c :: r → ¬ noise20 <+: a ++ t := by
  intro c r ha hpre
  subst ha
  obtain ⟨u, hu⟩ := hpre
  match r, h, hu with
  | [], _, hu =>
    rcases ht with rfl | ht
    · cases hu
    · cases t with
      | nil => cases hu
      | cons d t' =>
        simp only [List.head?_cons, Option.some.injEq] at ht
        subst ht
        cases hu
  | [d], _, hu =>
    rcases ht with rfl | ht
    · cases hu
    · cases t with
      | nil => cases hu
      | cons e t' =>
        simp only [List.head?_cons, Option.some.injEq] at ht
        subst ht
        cases hu
  | d :: e :: r', h, hu =>
    simp only [noise20, List.cons_append, List.nil_append, List.cons.injEq] at hu
    obtain ⟨h1, h2, h3, -⟩ := hu
    exact h ⟨[], r', by rw [← h1, ← h2, ← h3]; rfl⟩

/-- A string without `"%20"` is left unchanged. -/
theorem replaceNoise_of_not_infix {a : Str} (h : ¬ noise20 <:+: a) : replaceNoise a = a := by
  induction a with
  | nil => rfl
  | cons c a ih =>
    rw [replaceNoise_keep (fun hp => h hp.isInfix), ih (fun hin => h (List.infix_cons hin))]

/-- The text before the first `"%20"` is kept, and the pass resumes after it. -/
theorem replaceNoise_append_of_not_infix {a : Str} (t : Str) (h : ¬ noise20 <:+: a)
    (ht : t = [] ∨ t.head? = some '%') : replaceNoise (a ++ t) = a ++ replaceNoise t := by
  induction a with
  | nil => rfl
  | cons c a ih =>
    have hk := not_noise20_isPrefix_append t h ht c a rfl
    rw [List.cons_append] at hk
    rw [List.cons_append, replaceNoise_keep hk, ih (fun hin => h (List.infix_cons hin)),
      List.cons_append]

theorem replaceNoise_first (a b : Str) (h : ¬ noise20 <:+: a) :
    replaceNoise (a ++ noise20 ++ b) = a ++ replaceNoise (dropX b) := by
  rw [List.append_assoc, replaceNoise_append_of_not_infix (noise20 ++ b) h (Or.inr rfl),
    replaceNoise_noise20]


/-! ## Where a `"%20"` of the output comes from -/

theorem replaceNoise_head {t : Str} {d : Char} {R : Str} (h : replaceNoise t = d :: R) :
    ∃ (ns : List Str) (t' : Str), AllNoise ns ∧ t = ns.flatten ++ d :: t' ∧
      replaceNoise t' = R ∧ ¬ noise20 <+: d :: t' := by
  induction t using replaceNoise.induct with
  | case1 rest ih =>
    rw [replaceNoise.eq_1] at h
    obtain ⟨ns, t', hns, ht, hR, hk⟩ := ih h
    refine ⟨noise20x :: ns, t', ?_, ?_, hR, hk⟩
    · intro n hn
      rcases List.mem_cons.1 hn with e | hn
      · exact Or.inr e
      · exact hns n hn
    · rw [List.flatten_cons, List.append_assoc, ← ht]
      rfl
  | case2 rest hx ih =>
    rw [replaceNoise.eq_2 rest hx] at h
    obtain ⟨ns, t', hns, ht, hR, hk⟩ := ih h
    refine ⟨noise20 :: ns, t', ?_, ?_, hR, hk⟩
    · intro n hn
      rcases List.mem_cons.1 hn with e | hn
      · exact Or.inl e
      · exact hns n hn
    · rw [List.flatten_cons, List.append_assoc, ← ht]
      rfl
  | case3 c rest h1 h2 ih =>
    rw [replaceNoise.eq_3 c rest h1 h2] at h
    simp only [List.cons.injEq] at h
    obtain ⟨hc, hR⟩ := h
    subst hc
    refine ⟨[], rest, fun n hn => absurd hn (List.not_mem_nil n), rfl, hR, ?_⟩
    rintro ⟨r, hr⟩
    simp only [noise20, List.cons_append, List.nil_append, List.cons.injEq] at hr
    exact h2 r hr.1.symm hr.2.symm
  | case4 => simp [replaceNoise] at h

theorem joins_of_replaceNoise {s : Str} (h : noise20 <:+: replaceNoise s) :
    ∃ w, JoinsToNoise w ∧ w <:+: s := by
  induction s using replaceNoise.induct with
  | case1 rest ih =>
    rw [replaceNoise.eq_1] at h
    obtain ⟨w, hw, hin⟩ := ih h
    exact ⟨w, hw, hin.trans (List.suffix_append noise20x rest).isInfix⟩
  | case2 rest hx ih =>
    rw [replaceNoise.eq_2 rest hx] at h
    obtain ⟨w, hw, hin⟩ := ih h
    exact ⟨w, hw, hin.trans (List.suffix_append noise20 rest).isInfix⟩
  | case3 c rest h1 h2 ih =>
    rw [replaceNoise.eq_3 c rest h1 h2] at h
    rcases List.infix_cons_iff.1 h with hpre | hin
    · obtain ⟨R, hR⟩ := hpre
      simp only [noise20, List.cons_append, List.nil_append, List.cons.injEq] at hR
      obtain ⟨hc, hrest⟩ := hR
      obtain ⟨ns, t', hns, ht, hR2, -⟩ := replaceNoise_head hrest.symm
      obtain ⟨ms, t'', hms, ht2, -, -⟩ := replaceNoise_head hR2
      refine ⟨'%' :: ns.flatten ++ '2' :: ms.flatten ++ ['0'], ⟨ns, ms, hns, hms, ?_, rfl⟩, ?_⟩
      · intro hnil
        obtain ⟨rfl, rfl⟩ := List.append_eq_nil.1 hnil
        rw [ht2] at ht
        exact h2 t'' hc.symm ht
      · refine (List.IsPrefix.isInfix ⟨t'', ?_⟩)
        rw [ht, ht2, ← hc]
        simp
    · obtain ⟨w, hw, hin2⟩ := ih hin
      exact ⟨w, hw, List.infix_cons hin2⟩
  | case4 =>
    rw [replaceNoise.eq_4] at h
    have := List.infix_nil.1 h
    cases this

theorem replaceNoise_resume (pre t : Str) :
    ∃ o, replaceNoise (pre ++ '%' :: t) = o ++ replaceNoise ('%' :: t) := by
  induction pre using replaceNoise.induct with
  | case1 rest ih =>
    obtain ⟨o, ho⟩ := ih
    exact ⟨o, (replaceNoise_noise20x (rest ++ '%' :: t)).trans ho⟩
  | case2 rest hx ih =>
    obtain ⟨o, ho⟩ := ih
    refine ⟨o, (replaceNoise_noise20_of_ne ?_).trans ho⟩
    cases rest with
    | nil =>
      show some '%' ≠ some 'x'
      decide
    | cons c r =>
      intro hh
      change some c = some 'x' at hh
      cases hh
      exact hx r rfl
  | case3 c rest h1 h2 ih =>
    obtain ⟨o, ho⟩ := ih
    refine ⟨c :: o, ?_⟩
    have hk : ¬ noise20 <+: c :: (rest ++ '%' :: t) := by
      rintro ⟨r, hr⟩
      match rest, h2, hr with
      | [], _, hr => cases hr
      | [d], _, hr => cases hr
      | d :: e :: r', h2, hr =>
        simp only [noise20, List.cons_append, List.nil_append, List.cons.injEq] at hr
        exact h2 r' hr.1.symm (by rw [← hr.2.1, ← hr.2.2.1])
    rw [List.cons_append, replaceNoise_keep hk, ho, List.cons_append]
  | case4 => exact ⟨[], rfl⟩

theorem head?_flatten_noise {ns : List Str} (h : AllNoise ns) {y : Str}
    (hy : y.head? ≠ some 'x') : (ns.flatten ++ y).head? ≠ some 'x' := by
  cases ns with
  | nil => simpa using hy
  | cons n ns =>
    rcases h n (List.mem_cons_self _ _) with rfl | rfl <;> simp [noise20, noise20x]

theorem replaceNoise_flatten_noise {ns : List Str} (h : AllNoise ns) {y : Str}
    (hy : y.head? ≠ some 'x') : replaceNoise (ns.flatten ++ y) = replaceNoise y := by
  induction ns with
  | nil => rfl
  | cons n ns ih =>
    have hns : AllNoise ns := fun m hm => h m (List.mem_cons_of_mem _ hm)
    rw [List.flatten_cons, List.append_assoc]
    rcases h n (List.mem_cons_self _ _) with rfl | rfl
    · rw [replaceNoise_noise20_of_ne (head?_flatten_noise hns hy), ih hns]
    · rw [replaceNoise_noise20x, ih hns]

theorem replaceNoise_joins {w : Str} (hw : JoinsToNoise w) (post : Str) :
    replaceNoise (w ++ post) = noise20 ++ replaceNoise post := by
  obtain ⟨ns, ms, hns, hms, hne, rfl⟩ := hw
  have h0 : replaceNoise ('0' :: post) = '0' :: replaceNoise post :=
    replaceNoise_keep (not_noise20_isPrefix_of_ne _ (by decide))
  have h2 : replaceNoise ('2' :: (ms.flatten ++ '0' :: post)) =
      '2' :: '0' :: replaceNoise post := by
    rw [replaceNoise_keep (not_noise20_isPrefix_of_ne _ (by decide)),
      replaceNoise_flatten_noise hms (by simp), h0]
  have hk : ¬ noise20 <+: '%' :: (ns.flatten ++ '2' :: (ms.flatten ++ '0' :: post)) := by
    rintro ⟨r, hr⟩
    cases ns with
    | nil =>
      cases ms with
      | nil => exact hne rfl
      | cons m ms =>
        rcases hms m (List.mem_cons_self _ _) with rfl | rfl <;>
          simp [noise20, noise20x] at hr
    | cons n ns =>
      rcases hns n (List.mem_cons_self _ _) with rfl | rfl <;>
        simp [noise20, noise20x] at hr
  have hshape : ('%' :: ns.flatten ++ '2' :: ms.flatten ++ ['0']) ++ post =
      '%' :: (ns.flatten ++ '2' :: (ms.flatten ++ '0' :: post)) := by simp
  rw [hshape, replaceNoise_keep hk, replaceNoise_flatten_noise hns (by simp), h2]
  rfl

theorem replaceNoise_of_joins {s w : Str} (hw : JoinsToNoise w) (hin : w <:+: s) :
    noise20 <:+: replaceNoise s := by
  obtain ⟨pre, post, rfl⟩ := hin
  have hw' := hw
  obtain ⟨ns, ms, -, -, -, rfl⟩ := hw'
  obtain ⟨o, ho⟩ := replaceNoise_resume pre
    ((ns.flatten ++ '2' :: ms.flatten ++ ['0']) ++ post)
  have hshape : pre ++ ('%' :: ns.flatten ++ '2' :: ms.flatten ++ ['0']) ++ post =
      pre ++ '%' :: ((ns.flatten ++ '2' :: ms.flatten ++ ['0']) ++ post) := by simp
  have hshape2 : '%' :: ((ns.flatten ++ '2' :: ms.flatten ++ ['0']) ++ post) =
      ('%' :: ns.flatten ++ '2' :: ms.flatten ++ ['0']) ++ post := by simp
  rw [hshape, ho, hshape2, replaceNoise_joins hw post]
  exact List.infix_append' _ _ _

/-! ## Tokens are parts of the replaced string -/

theorem Split_head_isPrefix {sep : Char} {s q : Str} {qs : List Str}
    (h : Split sep s = q :: qs) : q <+: s := by
  induction s generalizing q qs with
  | nil =>
    simp only [Split, List.cons.injEq] at h
    rw [← h.1]
  | cons x xs ih =>
    unfold Split at h
    split at h
    · simp only [List.cons.injEq] at h
      rw [← h.1]
      exact List.nil_prefix
    · split at h
      · next hnil => exact absurd hnil (Split_ne_nil _ _)
      · next p ps hp =>
        simp only [List.cons.injEq] at h
        rw [← h.1]
        exact (List.prefix_cons_inj x).2 (ih hp)

theorem within_of_mem_Split {sep : Char} {s piece : Str} (hp : piece ∈ Split sep s) :
    piece <:+: s := by
  induction s generalizing piece with
  | nil =>
    simp only [Split, List.mem_singleton] at hp
    subst hp
    exact List.infix_refl _
  | cons x xs ih =>
    unfold Split at hp
    split at hp
    · rcases List.mem_cons.1 hp with e | hp
      · subst e; exact List.nil_infix
      · exact List.infix_cons (ih hp)
    · split at hp
      · next hnil => exact absurd hnil (Split_ne_nil _ _)
      · next q qs hq =>
        rcases List.mem_cons.1 hp with e | hp
        · subst e
          exact ((List.prefix_cons_inj x).2 (Split_head_isPrefix hq)).isInfix
        · exact List.infix_cons (ih (by rw [hq]; exact List.mem_cons_of_mem _ hp))

theorem token_within_replaceNoise {s token : Str} (ht : token ∈ splitProductID s) :
    token <:+: replaceNoise s := by
  rw [splitProductID, List.mem_map] at ht
  obtain ⟨piece, hp, rfl⟩ := ht
  exact ((cleanPiece_suffix piece).isInfix.trans (trimPiece_within piece)).trans
    (within_of_mem_Split hp)

/-- C13, amended: the tokens are cut from the string that the replacer leaves, and the
replacer removes every occurrence of the noise substrings that is in the input, in one
left-to-right pass: a string without `"%20"` is left unchanged, and in `a ++ "%20" ++ b`,
where `a` has no `"%20"`, `a` is kept, the `"%20"` and an `x` right after it are dropped
and the pass resumes in the rest. The string left by the pass contains `"%20"` exactly
when the input contains a `%`, a `2` and a `0` in this order, separated only by noise
substrings and by at least one (as in `"%" ++ "%20" ++ "20"`), which the removal joins
into a new `"%20"`; a token contains `"%20"` or `"%20x"` only for such an input. -/
theorem splitProductID_noise :
    (∀ s : Str, splitProductID s = (Split '/' (replaceNoise s)).map cleanPiece) ∧
      (∀ a : Str, ¬ noise20 <:+: a → replaceNoise a = a) ∧
      (∀ a b : Str, ¬ noise20 <:+: a →
        replaceNoise (a ++ noise20 ++ b) = a ++ replaceNoise (dropX b)) ∧
      (∀ s : Str, noise20 <:+: replaceNoise s ↔ ∃ w, JoinsToNoise w ∧ w <:+: s) ∧
      (∀ s : Str, ∀ token ∈ splitProductID s, noise20 <:+: token ∨ noise20x <:+: token →
        ∃ w, JoinsToNoise w ∧ w <:+: s) := by
  refine ⟨fun _ => rfl, fun a h => replaceNoise_of_not_infix h,
    fun a b h => replaceNoise_first a b h,
    fun s => ⟨joins_of_replaceNoise, fun ⟨w, hw, hin⟩ => replaceNoise_of_joins hw hin⟩, ?_⟩
  intro s token ht h
  have h20 : noise20 <:+: token := by
    rcases h with h | h
    · exact h
    · exact (List.IsPrefix.isInfix ⟨['x'], rfl⟩ : noise20 <:+: noise20x).trans h
  exact joins_of_replaceNoise (h20.trans (token_within_replaceNoise ht))

theorem splitProductID_noise_witness :
    splitProductID "100%/FG0A%20x".toList = ["100%".toList, "FG0A".toList] ∧
      replaceNoise ("100%/FG0A".toList ++ noise20 ++ "x".toList) =
        "100%/FG0A".toList ++ replaceNoise (dropX "x".toList) ∧
      ¬ ∃ w, JoinsToNoise w ∧ w <:+: "100%/FG0A%20x".toList :=
  ⟨by decide, splitProductID_noise.2.2.1 _ _ (Index_none (by decide)),
    fun h => absurd ((splitProductID_noise.2.2.2.1 _).2 h) (Index_none (by decide))⟩

/-! ## Sums of line prices without overflow -/

theorem mulInt_of_fits {a b : Int} (h : fitsInt (a * b)) : mulInt a b = a * b :=
  wrapInt_of_range h.1 h.2

theorem expandedQuantities_eq {o : InputOrder}
    (hmul : ∀ token ∈ splitProductID o.PlatformProductId,
      fitsInt (o.Qty * (extractQuantity token).2)) :
    expandedQuantities o =
      (splitProductID o.PlatformProductId).map fun token => o.Qty * (extractQuantity token).2 := by
  rw [expandedQuantities]
  exact List.map_congr_left fun token ht => mulInt_of_fits (hmul token ht)

theorem sum_map_mulInt {u : Int} {qs : List Int} (h : ∀ q ∈ qs, fitsInt (u * q)) :
    (qs.map (mulInt u)).sum = u * qs.sum := by
  induction qs with
  | nil => simp
  | cons q qs ih =>
    rw [List.map_cons, List.sum_cons, List.sum_cons, mul_add,
      mulInt_of_fits (h q (List.mem_cons_self _ _)),
      ih fun q' hq' => h q' (List.mem_cons_of_mem _ hq')]

/-- C17, as stated, fails: the order `"A/B/C/D/E"` with `Qty = 2^62` and
`TotalPrice = 2^62` has `TotalPrice ≥ 0` and a total that is greater than 0 (as the code
computes it, `2^62` after the overflow, and as a mathematical sum, `5 * 2^62`); its five
lines have `TotalPrice = 2^62` each, so their sum `5 * 2^62` exceeds the `TotalPrice` of
the order. -/
theorem NormalizeOrder_order_total_counterexample :
    0 ≤ orderOverflow.TotalPrice ∧
      0 < sumInt (expandedQuantities orderOverflow) ∧
      0 < ((splitProductID orderOverflow.PlatformProductId).map
        fun token => orderOverflow.Qty * (extractQuantity token).2).sum ∧
      ((NormalizeOrder [orderOverflow]).take 5).map (fun l => l.TotalPrice) =
        [2 ^ 62, 2 ^ 62, 2 ^ 62, 2 ^ 62, 2 ^ 62] ∧
      ¬ (((NormalizeOrder [orderOverflow]).take 5).map (fun l => l.TotalPrice)).sum ≤
        orderOverflow.TotalPrice := by
  refine ⟨by decide, by decide, by decide, by decide, by decide⟩

/-- C17, amended: for an order with `TotalPrice ≥ 0` (a Go `int`), when no integer
overflow occurs (every expanded quantity `Qty * n`, their sum `total` and every line total
`(TotalPrice / total) * (Qty * n)` fit a Go `int`) and `total > 0`, the sum `S` of
`TotalPrice` over the lines derived from that order satisfies
`TotalPrice - total < S ≤ TotalPrice`, and `S = TotalPrice` when `total` divides
`TotalPrice`. -/
theorem NormalizeOrder_order_total (pre post : List InputOrder) (o : InputOrder)
    (hp : 0 ≤ o.TotalPrice) (hmax : o.TotalPrice ≤ maxInt)
    (hmul : ∀ token ∈ splitProductID o.PlatformProductId,
      fitsInt (o.Qty * (extractQuantity token).2))
    (total : Int)
    (htotal : total = ((splitProductID o.PlatformProductId).map
      fun token => o.Qty * (extractQuantity token).2).sum)
    (hfit : fitsInt total) (ht : 0 < total)
    (hline : ∀ token ∈ splitProductID o.PlatformProductId,
      fitsInt (Int.tdiv o.TotalPrice total * (o.Qty * (extractQuantity token).2)))
    (S : Int)
    (hS : S = ((((NormalizeOrder (pre ++ o :: post)).drop (derivedCount pre)).take
      (splitProductID o.PlatformProductId).length).map fun l => l.TotalPrice).sum) :
    o.TotalPrice - total < S ∧ S ≤ o.TotalPrice ∧ (total ∣ o.TotalPrice → S = o.TotalPrice) := by
  have hq := expandedQuantities_eq hmul
  have htot : orderTotal o = total := by
    rw [orderTotal_eq_expanded, sumInt_eq, hq, ← htotal]
    exact wrapInt_of_range hfit.1 hfit.2
  have hpos : 0 < orderTotal o := by rw [htot]; exact ht
  have hmin : minInt ≤ o.TotalPrice := by unfold minInt; omega
  have hu : orderUnitPrice o = Int.tdiv o.TotalPrice total := by
    rw [orderUnitPrice, dif_pos hpos, divInt, htot]
    exact wrapInt_of_range (tdiv_range ⟨hmin, hmax⟩ ht).1 (tdiv_range ⟨hmin, hmax⟩ ht).2
  have hlines := congrArg (List.map fun l : CleanedOrder => l.TotalPrice)
    (output_order_slice pre post o)
  rw [List.map_map, List.map_map] at hlines
  have hmap : ((orderItems o).map ((fun l : CleanedOrder => l.TotalPrice) ∘
      itemLine 0 (orderUnitPrice o))) =
      (expandedQuantities o).map (mulInt (orderUnitPrice o)) := by
    rw [expandedQuantities, orderItems, List.map_map, List.map_map]
    rfl
  have hfits : ∀ q ∈ expandedQuantities o, fitsInt (orderUnitPrice o * q) := by
    intro q hq'
    rw [hq, List.mem_map] at hq'
    obtain ⟨token, htok, rfl⟩ := hq'
    rw [hu]
    exact hline token htok
  have hS2 : S = orderUnitPrice o * orderTotal o := by
    rw [hS]
    refine (congrArg List.sum (hlines.trans hmap)).trans ?_
    rw [sum_map_mulInt hfits, htot, hq, ← htotal]
  have hmul2 := orderUnitPrice_mul_total hp hmax hpos
  have h1 := Int.emod_nonneg o.TotalPrice (Int.ne_of_gt hpos)
  have h2 := Int.emod_lt_of_pos o.TotalPrice hpos
  rw [htot] at hmul2 h1 h2
  rw [htot] at hS2
  have hS3 : S = o.TotalPrice - o.TotalPrice % total := hS2.trans hmul2
  refine ⟨by omega, by omega, fun hdvd => ?_⟩
  rw [hS3, Int.emod_eq_zero_of_dvd hdvd]
  omega

theorem NormalizeOrder_order_total_witness :
    orderTrunc.TotalPrice - 3 <
        ((((NormalizeOrder ([] ++ orderTrunc :: [])).drop (derivedCount [])).take
          (splitProductID orderTrunc.PlatformProductId).length).map fun l => l.TotalPrice).sum ∧
      ((((NormalizeOrder ([] ++ orderTrunc :: [])).drop (derivedCount [])).take
          (splitProductID orderTrunc.PlatformProductId).length).map fun l => l.TotalPrice).sum ≤
        orderTrunc.TotalPrice :=
  ⟨(NormalizeOrder_order_total [] [] orderTrunc (by decide) (by decide) (by decide) 3
      (by decide) (by decide) (by decide) (by decide) _ rfl).1,
    (NormalizeOrder_order_total [] [] orderTrunc (by decide) (by decide) (by decide) 3
      (by decide) (by decide) (by decide) (by decide) _ rfl).2.1⟩

end Service
